import Mathlib

/-!
# Monte-Carlo estimation of pi (montecarlo_2.c): embedding and verified properties

Conventions of the embedding.

* `unsigned int` is a `Nat` below `2 ^ 32`; its arithmetic wraps with an explicit `% 2 ^ 32`.
* `long long` and `int` are `Int`. A counter is a sum of counts of workers, each between zero
  and the share `total_points / num_workers` of its worker (`worker_count_bounds`), so signed
  arithmetic stays within the `long long` range.
* `double` is idealised: a finite value is an exact rational (`c_double.num`), and a division by
  zero gives `c_double.nan` (for `0 / 0`) or `c_double.inf`.
* The two floating-point hit tests (`x * x + y * y <= 1.0` and the needle test, which calls `sin`)
  are parameters of the model (`fp_tests`): every theorem holds for every such test.
* The operating system is a set of oracles: tick counts, process and thread identifiers, and the
  success of each call that can fail.
* A C string is the list of its character codes; `snprintf` cuts the text at the size of its
  buffer.
-/

namespace MonteCarlo

/-! ## Configuration -/

def MAX_THREADS : Nat := 16

def MAX_PROCESSES : Nat := 16

def MAP_NAME_MAX : Nat := 256

/-- Size of the buffer that receives the path of the executable. -/
def MAX_PATH : Nat := 260

def INT_MIN : Int := -2147483648

def INT_MAX : Int := 2147483647

def LLONG_MIN : Int := -9223372036854775808

def LLONG_MAX : Int := 9223372036854775807

/-! ## Values and faults -/

/-- Idealised `double`: an exact rational, or the outcome of a division by zero. -/
inductive c_double where
  | num (q : ℚ)
  | inf
  | nan
  deriving DecidableEq

/-- Floating-point division `a / b`: no trap, a zero divisor yields NaN or an infinity. -/
def c_double.div (a b : ℚ) : c_double :=
  if b = 0 then (if a = 0 then c_double.nan else c_double.inf) else c_double.num (a / b)

/-- Ways in which a run stops without returning: an integer division by zero, the integer
division `LLONG_MIN / -1` whose quotient is not a `long long`, a write past the end of one
of the arrays of `MAX_THREADS` or `MAX_PROCESSES` slots, and `exit(1)`. -/
inductive Fault where
  | int_div_by_zero
  | int_div_overflow
  | array_overrun
  | exit_failure
  deriving DecidableEq

/-- Integer division `a / b` of C on `long long`: traps on a zero divisor and on
`LLONG_MIN / -1`, truncates otherwise. -/
def ll_div (a b : Int) : Except Fault Int :=
  if b = 0 then Except.error Fault.int_div_by_zero
  else if a = LLONG_MIN ∧ b = -1 then Except.error Fault.int_div_overflow
  else Except.ok (Int.tdiv a b)

/-- The divisions that do not trap. -/
def div_safe (a b : Int) : Prop := b ≠ 0 ∧ ¬(a = LLONG_MIN ∧ b = -1)

/-- The floating-point comparisons of the samplers, as functions of the two draws.
`dart_inside x y` stands for `x * x + y * y <= 1.0`; `needle_crosses L D u v` stands for
`y_min <= 0.0 || y_max >= D` with `center_y = u * D`, `angle = v * PI`,
`y_min = center_y - (L / 2) * sin(angle)` and `y_max = center_y + (L / 2) * sin(angle)`. -/
structure fp_tests where
  dart_inside : ℚ → ℚ → Bool
  needle_crosses : ℚ → ℚ → ℚ → ℚ → Bool

/-! ## Data structures -/

structure thread_data_t where
  points_per_thread : Int
  points_inside : Int
  seed : Nat
  thread_id : Int
  method : Int
  deriving DecidableEq, Inhabited

abbrev c_string := List Nat

structure shared_data_t where
  total_points : Int
  points_inside : Int
  num_workers : Int
  method : Int
  needle_length : ℚ
  line_spacing : ℚ
  mutex_name : c_string
  deriving DecidableEq

/-! ## Random numbers -/

/-- Function `rand_win(&seed)`: the pair (new value of `*seed`, returned value). -/
def rand_win (seed : Nat) : Nat × Nat :=
  let s := ((seed * 1103515245 % 2 ^ 32 + 12345) % 2 ^ 32) &&& 0x7FFFFFFF
  (s, s)

/-- Function `rand_double_win(&seed)`: the pair (new value of `*seed`, returned value). -/
def rand_double_win (seed : Nat) : Nat × ℚ :=
  let r := rand_win seed
  (r.1, (r.2 : ℚ) / ((0x7FFFFFFF : Nat) : ℚ))

/-! ## Sampling loops -/

/-- The trial loop shared by all workers: `n` iterations, each drawing twice from the
generator and incrementing the counter when the test holds. Returns (seed, counter). -/
def sample_loop (hit : ℚ → ℚ → Bool) : Nat → Nat → Int → Nat × Int
  | 0, seed, count => (seed, count)
  | n + 1, seed, count =>
    let a := rand_double_win seed
    let b := rand_double_win a.1
    sample_loop hit n b.1 (if hit a.2 b.2 then count + 1 else count)

/-- Number of iterations of `for (long long i = 0; i < bound; i++)`. -/
def loop_trips (bound : Int) : Nat := bound.toNat

def dartboard_thread_worker (fp : fp_tests) (data : thread_data_t) : thread_data_t :=
  let r := sample_loop fp.dart_inside (loop_trips data.points_per_thread) data.seed 0
  { data with points_inside := r.2, seed := r.1 }

def needles_thread_worker (fp : fp_tests) (data : thread_data_t) : thread_data_t :=
  let r := sample_loop (fp.needle_crosses 1 1) (loop_trips data.points_per_thread) data.seed 0
  { data with points_inside := r.2, seed := r.1 }

/-- Seed of a child process: `GetCurrentProcessId() ^ GetTickCount() ^ worker_id`,
converted to `unsigned int`. -/
def process_seed (pid tick : Nat) (worker_id : Int) : Nat :=
  (pid ^^^ tick ^^^ (worker_id % 2 ^ 32).toNat) % 2 ^ 32

/-- What a process worker reports: its loop bound and its local count. -/
structure worker_report where
  worker_id : Int
  trials : Int
  local_count : Int
  deriving DecidableEq

/-- Worker `dartboard_process_worker`. The merge `shared->points_inside += local_inside` is one
step, as it is when the worker holds the mutex `hMutexLocal`, whose only role is to serialise
the merges. -/
def dartboard_process_worker (fp : fp_tests) (pid tick : Nat) (worker_id : Int)
    (shared : shared_data_t) : Except Fault (shared_data_t × worker_report) := do
  let seed := process_seed pid tick worker_id
  let points_per_process ← ll_div shared.total_points shared.num_workers
  let local_inside := (sample_loop fp.dart_inside (loop_trips points_per_process) seed 0).2
  pure ({ shared with points_inside := shared.points_inside + local_inside },
        ⟨worker_id, points_per_process, local_inside⟩)

/-- Worker `needles_process_worker`: as above, with the needle test on the shared geometry. -/
def needles_process_worker (fp : fp_tests) (pid tick : Nat) (worker_id : Int)
    (shared : shared_data_t) : Except Fault (shared_data_t × worker_report) := do
  let seed := process_seed pid tick worker_id
  let needles_per_process ← ll_div shared.total_points shared.num_workers
  let local_crossings :=
    (sample_loop (fp.needle_crosses shared.needle_length shared.line_spacing)
      (loop_trips needles_per_process) seed 0).2
  pure ({ shared with points_inside := shared.points_inside + local_crossings },
        ⟨worker_id, needles_per_process, local_crossings⟩)

/-! ## Estimates -/

/-- The estimate computed at the end of each strategy from the aggregate count:
`4.0 * (double)count / total_points` for the dartboard, and for the needles
`0.0` when `count == 0`, else `(2.0 * L * total_points) / (D * count)`. -/
def estimate (method : Int) (needle_length line_spacing : ℚ) (count total_points : Int) :
    c_double :=
  if method = 1 then c_double.div (4 * (count : ℚ)) (total_points : ℚ)
  else if count = 0 then c_double.num 0
  else c_double.div (2 * needle_length * (total_points : ℚ)) (line_spacing * (count : ℚ))

/-! ## Serial version -/

/-- The counter of `serial_monte_carlo` after its loop; `tick` is `GetTickCount()`. -/
def serial_count (fp : fp_tests) (tick : Nat) (total_points : Int) (method : Int) : Int :=
  if method = 1 then (sample_loop fp.dart_inside (loop_trips total_points) tick 0).2
  else (sample_loop (fp.needle_crosses 1 1) (loop_trips total_points) tick 0).2

def serial_monte_carlo (fp : fp_tests) (tick : Nat) (total_points : Int) (method : Int) :
    c_double :=
  estimate method 1 1 (serial_count fp tick total_points method) total_points

/-! ## Threads

The arrays `threads` and `thread_data` have `MAX_THREADS` slots; the slots in use are written
as a list, and a run that writes past slot `MAX_THREADS - 1` stops with `array_overrun`. -/

/-- Oracles of the thread coordinator. -/
structure thread_env where
  /-- Value of `GetTickCount()` when worker `i` is set up. -/
  tick : Nat → Nat
  /-- Value of `GetCurrentThreadId()` in the coordinator. -/
  tid : Nat
  /-- Whether `CreateThread` succeeds for worker `i`. -/
  create_ok : Nat → Bool
  /-- Content of the uninitialised `points_inside` of slot `i`. -/
  stack : Nat → Int

/-- Seed of worker `i`: `GetTickCount() ^ (i + 1) ^ GetCurrentThreadId()`. -/
def thread_seed (tick : Nat) (i : Nat) (tid : Nat) : Nat :=
  (tick ^^^ (i + 1) ^^^ tid) % 2 ^ 32

/-- Slot `i` as filled in by the creation loop. -/
def init_thread_data (env : thread_env) (points_per_thread : Int) (method : Int) (i : Nat) :
    thread_data_t :=
  { points_per_thread := points_per_thread
    points_inside := env.stack i
    seed := thread_seed (env.tick i) i env.tid
    thread_id := (i : Int)
    method := method }

/-- The creation loop, from index `i` for `k` more workers. The iteration for worker `i`
writes `thread_data[i]` and `threads[i]`, which exist for `i < MAX_THREADS` only; a failure of
`CreateThread` ends the run with `exit(1)`. -/
def create_threads (env : thread_env) (points_per_thread : Int) (method : Int) :
    Nat → Nat → Except Fault (List thread_data_t)
  | 0, _ => Except.ok []
  | k + 1, i =>
    if MAX_THREADS ≤ i then Except.error Fault.array_overrun
    else if env.create_ok i then
      match create_threads env points_per_thread method k (i + 1) with
      | Except.ok rest => Except.ok (init_thread_data env points_per_thread method i :: rest)
      | Except.error e => Except.error e
    else Except.error Fault.exit_failure

/-- The thread started on a slot runs the worker selected by `method`. -/
def run_thread (fp : fp_tests) (method : Int) (data : thread_data_t) : thread_data_t :=
  if method = 1 then dartboard_thread_worker fp data else needles_thread_worker fp data

/-- The collection loop: `for (i = 0; i < num_threads; i++) total_inside += thread_data[i].points_inside`. -/
def collect_results (thread_data : List thread_data_t) (num_threads : Nat) : Int :=
  (List.range num_threads).foldl
    (fun total_inside i => total_inside + (thread_data.getD i default).points_inside) 0

/-- The slots of `parallel_threads_monte_carlo` after the barrier. -/
def threads_after_barrier (fp : fp_tests) (env : thread_env) (total_points : Int)
    (num_threads : Int) (method : Int) : Except Fault (List thread_data_t) := do
  let points_per_thread ← ll_div total_points num_threads
  let thread_data ← create_threads env points_per_thread method (loop_trips num_threads) 0
  pure (thread_data.map (run_thread fp method))

def parallel_threads_monte_carlo (fp : fp_tests) (env : thread_env) (total_points : Int)
    (num_threads : Int) (method : Int) : Except Fault c_double := do
  let thread_data ← threads_after_barrier fp env total_points num_threads method
  let total_inside := collect_results thread_data (loop_trips num_threads)
  pure (estimate method 1 1 total_inside total_points)

/-! ## Command line of a child process

Strings are lists of character codes: 9 tab, 32 blank, 34 double quote, 43 plus, 45 minus,
48 to 57 the digits, 92 backslash, 95 underscore. -/

def c_str (s : String) : c_string := s.toList.map Char.toNat

/-- Digits of `n`, most significant first; `fuel` bounds the number of digits. -/
def decimal_fuel : Nat → Nat → c_string
  | 0, _ => []
  | fuel + 1, n => if n < 10 then [48 + n] else decimal_fuel fuel (n / 10) ++ [48 + n % 10]

/-- Conversion `%lu` of `snprintf`. -/
def decimal_nat (n : Nat) : c_string := decimal_fuel (n + 1) n

/-- Conversions `%d` and `%lld` of `snprintf`. -/
def decimal (n : Int) : c_string :=
  if n < 0 then 45 :: decimal_nat n.natAbs else decimal_nat n.natAbs

/-- Effect of `snprintf(buffer, size, ...)` on the formatted text: at most `size - 1`
characters are kept. -/
def snprintf (size : Nat) (text : c_string) : c_string := text.take (size - 1)

/-- The name `Local\MonteCarloMap_<pid>_<tick>` of the file mapping, in `map_name`. -/
def format_map_name (pid tick : Nat) : c_string :=
  snprintf MAP_NAME_MAX
    (c_str "Local" ++ [92] ++ c_str "MonteCarloMap_" ++ decimal_nat pid ++ [95] ++
      decimal_nat tick)

/-- The name `Local\MonteCarloMutex_<pid>_<tick>` of the mutex, formatted into a buffer of 128
characters and copied into the 64 characters of `shared->mutex_name`. -/
def format_mutex_name (pid tick : Nat) : c_string :=
  snprintf 64 (snprintf 128
    (c_str "Local" ++ [92] ++ c_str "MonteCarloMutex_" ++ decimal_nat pid ++ [95] ++
      decimal_nat tick))

/-- The command line of child `i`: format `"%s" child %d %lld %d %s` applied to
`exe_path, i, total_points, method, map_name`, in a buffer of 1024 characters. -/
def build_cmdline (exe_path : c_string) (i : Int) (total_points : Int) (method : Int)
    (map_name : c_string) : c_string :=
  snprintf 1024
    ([34] ++ exe_path ++ [34] ++ c_str " child " ++ decimal i ++ [32] ++ decimal total_points
      ++ [32] ++ decimal method ++ [32] ++ map_name)

def is_blank (c : Nat) : Bool := c == 32 || c == 9

def is_quote (c : Nat) : Bool := c == 34

/-- A character that is neither a blank nor a double quote. -/
def plain (c : Nat) : Prop := is_blank c = false ∧ is_quote c = false

/-- Whether every character of a string is plain. -/
def all_plain (l : c_string) : Bool := l.all (fun c => !is_blank c && !is_quote c)

/-- Whether a string has no double quote. -/
def no_quote (l : c_string) : Bool := l.all (fun c => !is_quote c)

/-- One argument of a command line: a double quote toggles quoting and is dropped, a blank
outside quotes ends the argument. Returns (argument, rest of the line). -/
def scan_arg : c_string → Bool → c_string × c_string
  | [], _ => ([], [])
  | c :: cs, in_quotes =>
    if is_quote c then scan_arg cs (!in_quotes)
    else if !in_quotes && is_blank c then ([], c :: cs)
    else ((c :: (scan_arg cs in_quotes).1), (scan_arg cs in_quotes).2)

/-- The arguments after the program name. -/
def split_args : Nat → c_string → List c_string
  | 0, _ => []
  | fuel + 1, s =>
    match s.dropWhile is_blank with
    | [] => []
    | c :: cs => (scan_arg (c :: cs) false).1 :: split_args fuel (scan_arg (c :: cs) false).2

/-- The program name `argv[0]`: up to the closing quote when the line starts with a quote,
up to the first blank otherwise. Returns (name, rest of the line). -/
def split_program (cmdline : c_string) : c_string × c_string :=
  match cmdline with
  | [] => ([], [])
  | c :: cs =>
    if is_quote c then
      (cs.takeWhile (fun d => !is_quote d), (cs.dropWhile (fun d => !is_quote d)).drop 1)
    else
      ((c :: cs).takeWhile (fun d => !is_blank d), (c :: cs).dropWhile (fun d => !is_blank d))

/-- How the C runtime of the child turns its command line into `argv`. The rule on
backslashes is left out: it only concerns a backslash followed by a double quote. -/
def split_cmdline (cmdline : c_string) : List c_string :=
  (split_program cmdline).1 ::
    split_args ((split_program cmdline).2.length + 1) (split_program cmdline).2

def is_space (c : Nat) : Bool := c == 32 || (decide (9 ≤ c) && decide (c ≤ 13))

def is_digit (c : Nat) : Bool := decide (48 ≤ c) && decide (c ≤ 57)

/-- Value of the leading digits of a string, continuing the accumulator. -/
def parse_digits : c_string → Nat → Nat
  | [], acc => acc
  | c :: cs, acc => if is_digit c then parse_digits cs (acc * 10 + (c - 48)) else acc

/-- Blanks, an optional sign, then digits. -/
def parse_integer (s : c_string) : Int :=
  match s.dropWhile is_space with
  | [] => 0
  | c :: cs =>
    if c = 45 then -((parse_digits cs 0 : Nat) : Int)
    else if c = 43 then ((parse_digits cs 0 : Nat) : Int)
    else ((parse_digits (c :: cs) 0 : Nat) : Int)

/-- Saturation of a parsed value at the bounds of the result type. -/
def clamp (lo hi x : Int) : Int := max lo (min hi x)

def atoi (s : c_string) : Int := clamp INT_MIN INT_MAX (parse_integer s)

def atoll (s : c_string) : Int := clamp LLONG_MIN LLONG_MAX (parse_integer s)

/-- The test `argc >= 2 && strcmp(argv[1], "child") == 0` of `main`. -/
def main_runs_child (argv : List c_string) : Bool :=
  decide (2 ≤ argv.length) && decide (argv.getD 1 [] = c_str "child")

/-! ## Child processes -/

/-- Oracles of one child process. -/
structure child_env where
  /-- Value of `GetCurrentProcessId()`. -/
  pid : Nat
  /-- Value of `GetTickCount()`. -/
  tick : Nat
  /-- Whether `OpenFileMappingA` succeeds on the name of an existing mapping. -/
  open_mapping_ok : Bool
  /-- Whether `MapViewOfFile` succeeds. -/
  map_view_ok : Bool
  /-- Whether `OpenMutexA` succeeds. -/
  open_mutex_ok : Bool
  /-- Whether the fallback `CreateMutexA` succeeds. -/
  create_mutex_ok : Bool

/-- The values `run_as_child_process` reads from `argv`. -/
structure child_args where
  worker_id : Int
  total_points : Int
  method : Int
  map_name : c_string
  deriving DecidableEq

/-- The parse `atoi(argv[2]), atoll(argv[3]), atoi(argv[4]), argv[5]` after `argc >= 6`. -/
def parse_child_args (argv : List c_string) : Option child_args :=
  if argv.length < 6 then none
  else some
    { worker_id := atoi (argv.getD 2 [])
      total_points := atoll (argv.getD 3 [])
      method := atoi (argv.getD 4 [])
      map_name := argv.getD 5 [] }

/-- Outcome of a child process. -/
structure child_result where
  /-- Exit code of `run_as_child_process`, or the fault that ended the process. -/
  status : Except Fault Int
  /-- The shared record afterwards. -/
  shared : shared_data_t
  /-- The report of the worker, when one ran. -/
  report : Option worker_report
  /-- Whether the merge was done holding the mutex. -/
  locked : Bool

/-- Function `run_as_child_process(argc, argv)`; `segment` is the name of the mapping that exists and
`shared` its content. The merge of the worker is one step (see `dartboard_process_worker`). -/
def run_as_child_process (fp : fp_tests) (env : child_env) (segment : c_string)
    (argv : List c_string) (shared : shared_data_t) : child_result :=
  match parse_child_args argv with
  | none => ⟨Except.ok 1, shared, none, false⟩
  | some args =>
    if !(env.open_mapping_ok && decide (args.map_name = segment)) then
      ⟨Except.ok 1, shared, none, false⟩
    else if !env.map_view_ok then ⟨Except.ok 1, shared, none, false⟩
    else
      let hMutexLocal : Bool :=
        decide (shared.mutex_name ≠ []) && (env.open_mutex_ok || env.create_mutex_ok)
      let work :=
        if args.method = 1 then dartboard_process_worker fp env.pid env.tick args.worker_id shared
        else needles_process_worker fp env.pid env.tick args.worker_id shared
      match work with
      | Except.ok r => ⟨Except.ok 0, r.1, some r.2, hMutexLocal⟩
      | Except.error e => ⟨Except.error e, shared, none, hMutexLocal⟩

/-- The count a child merged into the shared record: that of its report, 0 without one. -/
def child_count (r : child_result) : Int :=
  match r.report with
  | some rep => rep.local_count
  | none => 0

/-! ## Processes

The array `pi` has `MAX_PROCESSES` slots; a run that writes past slot `MAX_PROCESSES - 1`
stops with `array_overrun`. The children run while the parent spawns and waits; since
each merge is one step, a run is described by the order of the merges, taken here to be the
order of the indices (`run_workers` takes any order). -/

/-- Oracles of the process coordinator. -/
structure process_env where
  /-- Value of `GetCurrentProcessId()` in the parent. -/
  pid : Nat
  /-- Value of `GetTickCount()` when the mapping is named. -/
  tick_map : Nat
  /-- Value of `GetTickCount()` when the mutex is named. -/
  tick_mutex : Nat
  /-- Result of `GetModuleFileNameA`. -/
  exe_path : c_string
  /-- Whether `CreateFileMappingA` succeeds. -/
  create_mapping_ok : Bool
  /-- Whether `MapViewOfFile` succeeds. -/
  map_view_ok : Bool
  /-- Whether `CreateMutexA` succeeds. -/
  create_mutex_ok : Bool
  /-- Whether `CreateProcessA` succeeds for worker `i`. -/
  spawn_ok : Nat → Bool
  /-- The oracles of child `i`. -/
  child : Nat → child_env

/-- The shared record as initialised by the parent. -/
def init_shared (env : process_env) (total_points : Int) (num_processes : Int) (method : Int) :
    shared_data_t :=
  { total_points := total_points
    points_inside := 0
    num_workers := num_processes
    method := method
    needle_length := 1
    line_spacing := 1
    mutex_name := format_mutex_name env.pid env.tick_mutex }

/-- State of the spawn loop: the shared record, the slots `pi[i].hProcess` filled so far
(true for a live handle, false for a zeroed slot) and the outcome of each child started. -/
structure spawn_state where
  shared : shared_data_t
  pi : List Bool
  children : List (Nat × child_result)

/-- Outcome of one iteration of the spawn loop. -/
structure spawn_step where
  /-- The shared record once the child, if any, has run. -/
  shared : shared_data_t
  /-- The slot `pi[i].hProcess`: true for a live handle, false for a zeroed slot. -/
  live : Bool
  /-- The child started, with its outcome. -/
  started : List (Nat × child_result)

/-- The iteration of the spawn loop for worker `i`: the command line is built, and when
`CreateProcessA` succeeds the child runs `main` on it. -/
def spawn_one (fp : fp_tests) (env : process_env) (total_points : Int) (method : Int)
    (map_name : c_string) (i : Nat) (shared : shared_data_t) : spawn_step :=
  let cmdline := build_cmdline env.exe_path (i : Int) total_points method map_name
  if env.spawn_ok i then
    let argv := split_cmdline cmdline
    if main_runs_child argv then
      let r := run_as_child_process fp (env.child i) map_name argv shared
      ⟨r.shared, true, [(i, r)]⟩
    else ⟨shared, true, []⟩
  else ⟨shared, false, []⟩

/-- The spawn loop from index `i` for `k` more workers; children are taken in the order of
their index. The iteration for worker `i` writes `pi[i]`, which exists for
`i < MAX_PROCESSES` only. -/
def spawn_children (fp : fp_tests) (env : process_env) (total_points : Int) (method : Int)
    (map_name : c_string) : Nat → Nat → shared_data_t → Except Fault spawn_state
  | 0, _, shared => Except.ok ⟨shared, [], []⟩
  | k + 1, i, shared =>
    if MAX_PROCESSES ≤ i then Except.error Fault.array_overrun
    else
      match spawn_children fp env total_points method map_name k (i + 1)
          (spawn_one fp env total_points method map_name i shared).shared with
      | Except.ok rest =>
        Except.ok
          ⟨rest.shared, (spawn_one fp env total_points method map_name i shared).live :: rest.pi,
            (spawn_one fp env total_points method map_name i shared).started ++ rest.children⟩
      | Except.error e => Except.error e

/-- The wait loop: the indices `i < num_processes` whose `pi[i].hProcess` is not null. -/
def wait_children (pi : List Bool) (num_processes : Nat) : List Nat :=
  (List.range num_processes).filter (fun i => pi.getD i false)

/-- Everything observable in one run of `parallel_processes_monte_carlo`. -/
structure process_run where
  /-- The shared record when the parent reads it. -/
  shared : shared_data_t
  /-- The children the parent waited on. -/
  waited : List Nat
  /-- The children that ran, with their outcome. -/
  children : List (Nat × child_result)
  /-- The returned estimate. -/
  pi_estimate : c_double

def run_processes (fp : fp_tests) (env : process_env) (total_points : Int) (num_processes : Int)
    (method : Int) : Except Fault process_run :=
  if !env.create_mapping_ok then Except.error Fault.exit_failure
  else if !env.map_view_ok then Except.error Fault.exit_failure
  else if !env.create_mutex_ok then Except.error Fault.exit_failure
  else
    match spawn_children fp env total_points method (format_map_name env.pid env.tick_map)
        (loop_trips num_processes) 0 (init_shared env total_points num_processes method) with
    | Except.error e => Except.error e
    | Except.ok st =>
      Except.ok
        { shared := st.shared
          waited := wait_children st.pi (loop_trips num_processes)
          children := st.children
          pi_estimate :=
            estimate method st.shared.needle_length st.shared.line_spacing
              st.shared.points_inside total_points }

def parallel_processes_monte_carlo (fp : fp_tests) (env : process_env) (total_points : Int)
    (num_processes : Int) (method : Int) : Except Fault c_double :=
  (run_processes fp env total_points num_processes method).map (fun r => r.pi_estimate)

/-- The workers of a set of started children, run one after the other on the shared record:
each entry is (process id, tick count, worker index). -/
def run_workers (fp : fp_tests) (method : Int) :
    List (Nat × Nat × Int) → shared_data_t → Except Fault shared_data_t
  | [], shared => Except.ok shared
  | c :: cs, shared =>
    match (if method = 1 then dartboard_process_worker fp c.1 c.2.1 c.2.2 shared
           else needles_process_worker fp c.1 c.2.1 c.2.2 shared) with
    | Except.ok r => run_workers fp method cs r.1
    | Except.error e => Except.error e

/-- The trials a process worker runs on a shared record. -/
def share_of (s : shared_data_t) : Int :=
  ((loop_trips (Int.tdiv s.total_points s.num_workers) : Nat) : Int)

/-! ## Concrete tests and environments used in the examples -/

/-- Tests in exact arithmetic: the dartboard test on the exact draws, and the needle test with
the sine of `v * PI` replaced by the rational `16 v (1 - v) / (5 - 4 v (1 - v))`. -/
def exact_tests : fp_tests :=
  { dart_inside := fun x y => decide (x * x + y * y ≤ 1)
    needle_crosses := fun L D u v =>
      decide (u * D - L / 2 * (16 * v * (1 - v) / (5 - 4 * v * (1 - v))) ≤ 0) ||
      decide (D ≤ u * D + L / 2 * (16 * v * (1 - v) / (5 - 4 * v * (1 - v)))) }

/-- A thread environment in which every thread is created. -/
def sample_thread_env : thread_env :=
  { tick := fun i => 100 + i
    tid := 77
    create_ok := fun _ => true
    stack := fun _ => 12345 }

/-- A thread environment in which the tick count moves from 1008 to 1023 just before the
last of 8 workers is set up. -/
def colliding_thread_env : thread_env :=
  { tick := fun i => if i = 7 then 1023 else 1008
    tid := 77
    create_ok := fun _ => true
    stack := fun _ => 0 }

/-- A process environment in which the spawn of worker 2 fails. -/
def sample_process_env : process_env :=
  { pid := 4242
    tick_map := 1000
    tick_mutex := 1001
    exe_path := c_str "C:/Program Files/mc.exe"
    create_mapping_ok := true
    map_view_ok := true
    create_mutex_ok := true
    spawn_ok := fun i => i != 2
    child := fun i => ⟨5000 + i, 2000 + i, true, true, true, true⟩ }

/-! ## Lemmas on the generator and the sampling loop -/

theorem rand_win_value (s : Nat) : (rand_win s).2 = (s * 1103515245 + 12345) % 2 ^ 31 := by
  have h : (0x7FFFFFFF : Nat) = 2 ^ 31 - 1 := by norm_num
  simp only [rand_win, h, Nat.and_pow_two_sub_one_eq_mod]
  omega

theorem rand_win_state (s : Nat) : (rand_win s).1 = (rand_win s).2 := rfl

theorem rand_win_le (s : Nat) : (rand_win s).2 ≤ 2 ^ 31 - 1 := by
  rw [rand_win_value]
  omega

theorem rand_double_win_value (s : Nat) :
    (rand_double_win s).2 = ((rand_win s).2 : ℚ) / 2147483647 := by
  simp [rand_double_win]

/-- The counter of the trial loop grows by at most one per iteration. -/
theorem sample_loop_bounds (hit : ℚ → ℚ → Bool) (n : Nat) :
    ∀ (seed : Nat) (count : Int),
      count ≤ (sample_loop hit n seed count).2 ∧
      (sample_loop hit n seed count).2 ≤ count + (n : Int) := by
  induction n with
  | zero => intro seed count; simp [sample_loop]
  | succ n ih =>
    intro seed count
    simp only [sample_loop]
    split
    · have h := ih (rand_double_win (rand_double_win seed).1).1 (count + 1)
      push_cast
      omega
    · have h := ih (rand_double_win (rand_double_win seed).1).1 count
      push_cast
      omega

theorem loop_trips_of_nonneg {b : Int} (h : 0 ≤ b) : ((loop_trips b : Nat) : Int) = b := by
  simp [loop_trips, Int.toNat_of_nonneg h]

theorem loop_trips_of_nonpos {b : Int} (h : b ≤ 0) : loop_trips b = 0 := by
  simp [loop_trips, Int.toNat_eq_zero, h]

theorem loop_trips_le (b : Int) (h : 0 ≤ b) : ((loop_trips b : Nat) : Int) ≤ b := by
  rw [loop_trips_of_nonneg h]

/-- The count of a worker lies between zero and its loop bound. -/
theorem worker_count_bounds (hit : ℚ → ℚ → Bool) (bound : Int) (seed : Nat) (h : 0 ≤ bound) :
    0 ≤ (sample_loop hit (loop_trips bound) seed 0).2 ∧
    (sample_loop hit (loop_trips bound) seed 0).2 ≤ bound := by
  have hb := sample_loop_bounds hit (loop_trips bound) seed 0
  have hl := loop_trips_of_nonneg h
  omega

theorem worker_count_zero (hit : ℚ → ℚ → Bool) (bound : Int) (seed : Nat) (h : bound ≤ 0) :
    (sample_loop hit (loop_trips bound) seed 0).2 = 0 := by
  rw [loop_trips_of_nonpos h]
  rfl

/-- Truncating division of a non-negative value by a positive one loses the remainder only. -/
theorem tdiv_split (a b : Int) (ha : 0 ≤ a) (hb : 1 ≤ b) :
    0 ≤ Int.tdiv a b ∧ b * Int.tdiv a b ≤ a ∧ a - b * Int.tdiv a b = a % b := by
  have hb0 : (0 : Int) ≤ b := by omega
  rw [Int.tdiv_eq_ediv ha hb0]
  have h1 := Int.ediv_add_emod a b
  have h2 := Int.emod_nonneg a (show b ≠ 0 by omega)
  have h3 : 0 ≤ a / b := Int.ediv_nonneg ha hb0
  refine ⟨h3, ?_, ?_⟩ <;> omega

/-! ## The generator -/

/-- C7: for every 32-bit seed `s`, `rand_win` depends on `s` alone and returns
`(s * 1103515245 + 12345) mod 2^31`, that is the 32-bit wrap-around product and sum masked with
`0x7FFFFFFF`; the value lies between 0 and `2^31 - 1`, and it is stored back as the new seed. -/
theorem rand_win_is_lcg_step (s : Nat) (_hs : s < 2 ^ 32) :
    (rand_win s).2 = (s * 1103515245 + 12345) % 2 ^ 31 ∧
    (rand_win s).2 = ((s * 1103515245 % 2 ^ 32 + 12345) % 2 ^ 32) &&& 0x7FFFFFFF ∧
    0 ≤ (rand_win s).2 ∧ (rand_win s).2 ≤ 2 ^ 31 - 1 ∧
    (rand_win s).1 = (rand_win s).2 :=
  ⟨rand_win_value s, rfl, Nat.zero_le _, rand_win_le s, rfl⟩

theorem rand_win_is_lcg_step_witness :
    (4000000000 < 2 ^ 32) ∧ (rand_win 4000000000).2 = 433076281 ∧
    (rand_win 4000000000).1 = 433076281 := by
  have h := rand_win_is_lcg_step 4000000000 (by norm_num)
  refine ⟨by norm_num, ?_, ?_⟩
  · rw [h.1]; norm_num
  · rw [h.2.2.2.2, h.1]; norm_num

/-- C6 (counterexample): the 32-bit seed 230538014 makes `rand_win` return `0x7FFFFFFF`, so
`rand_double_win` returns exactly 1, which is not below 1. -/
theorem rand_double_win_reaches_one :
    230538014 < 2 ^ 32 ∧ (rand_win 230538014).2 = 0x7FFFFFFF ∧
    (rand_double_win 230538014).2 = 1 ∧ ¬ (rand_double_win 230538014).2 < 1 := by
  have h : rand_win 230538014 = (2147483647, 2147483647) := by decide
  have h1 : (rand_double_win 230538014).2 = 1 := by simp [rand_double_win, h]
  refine ⟨by norm_num, by rw [h], h1, ?_⟩
  rw [h1]
  exact lt_irrefl 1

/-- C6 (amended): for every 32-bit seed `s`, `rand_double_win` returns
`x = rand_win(s) / 0x7FFFFFFF` with `0 <= x <= 1`, and `x = 1` exactly when `rand_win`
returns `0x7FFFFFFF`. -/
theorem rand_double_win_range (s : Nat) (_hs : s < 2 ^ 32) :
    (rand_double_win s).2 = ((rand_win s).2 : ℚ) / 0x7FFFFFFF ∧
    (rand_double_win s).1 = (rand_win s).1 ∧
    0 ≤ (rand_double_win s).2 ∧ (rand_double_win s).2 ≤ 1 ∧
    ((rand_double_win s).2 = 1 ↔ (rand_win s).2 = 0x7FFFFFFF) := by
  have hv := rand_double_win_value s
  have hle : ((rand_win s).2 : ℚ) ≤ 2147483647 := by
    have := rand_win_le s
    have h2 : (rand_win s).2 ≤ 2147483647 := by omega
    exact_mod_cast h2
  have h0 : (0 : ℚ) ≤ ((rand_win s).2 : ℚ) := by positivity
  refine ⟨by rw [hv], rfl, ?_, ?_, ?_⟩
  · rw [hv]; positivity
  · rw [hv, div_le_one (by norm_num)]; exact hle
  · rw [hv, div_eq_one_iff_eq (by norm_num)]
    constructor
    · intro h; exact_mod_cast h
    · intro h; rw [h]; norm_num

theorem rand_double_win_range_witness :
    (1 < 2 ^ 32) ∧ (rand_double_win 1).2 = 1103527590 / 2147483647 ∧
    (rand_double_win 1).2 ≤ 1 := by
  have h := rand_double_win_range 1 (by norm_num)
  have hr : rand_win 1 = (1103527590, 1103527590) := by decide
  refine ⟨by norm_num, ?_, h.2.2.2.1⟩
  rw [h.1, hr]
  norm_num

/-! ## Integer division -/

theorem ll_div_safe {a b : Int} (h : div_safe a b) : ll_div a b = Except.ok (Int.tdiv a b) := by
  unfold ll_div
  rw [if_neg h.1, if_neg h.2]

theorem ll_div_unsafe {a b : Int} (h : ¬ div_safe a b) : ∃ e, ll_div a b = Except.error e := by
  unfold ll_div
  by_cases h0 : b = 0
  · exact ⟨_, if_pos h0⟩
  · by_cases h1 : a = LLONG_MIN ∧ b = -1
    · exact ⟨Fault.int_div_overflow, by rw [if_neg h0, if_pos h1]⟩
    · exact absurd ⟨h0, h1⟩ h

theorem div_safe_of_pos (a : Int) {b : Int} (h : 1 ≤ b) : div_safe a b :=
  ⟨by omega, fun h1 => by omega⟩

theorem div_safe_zero {b : Int} (h : b ≠ 0) : div_safe 0 b :=
  ⟨h, fun h1 => by simp [LLONG_MIN] at h1⟩

/-- The division `LLONG_MIN / -1` traps. -/
theorem ll_div_overflow : ll_div LLONG_MIN (-1) = Except.error Fault.int_div_overflow := by
  simp [ll_div, LLONG_MIN]

/-! ## Splitting the trials -/

theorem create_threads_ok (env : thread_env) (ppt method : Int) (k : Nat) :
    ∀ i : Nat, i + k ≤ MAX_THREADS → (∀ j, i ≤ j → j < i + k → env.create_ok j = true) →
      create_threads env ppt method k i =
        Except.ok ((List.range' i k).map (init_thread_data env ppt method)) := by
  induction k with
  | zero => intro i _ _; rfl
  | succ k ih =>
    intro i hb h
    have hi : env.create_ok i = true := h i (le_refl i) (by omega)
    have hrest := ih (i + 1) (by omega) (fun j h1 h2 => h j (by omega) (by omega))
    have hlt : ¬ MAX_THREADS ≤ i := by omega
    simp [create_threads, hlt, hi, hrest, List.range'_succ]

theorem create_threads_fail (env : thread_env) (ppt method : Int) (k : Nat) :
    ∀ i : Nat, i + k ≤ MAX_THREADS → (∃ j, i ≤ j ∧ j < i + k ∧ env.create_ok j = false) →
      create_threads env ppt method k i = Except.error Fault.exit_failure := by
  induction k with
  | zero => intro i _ h; obtain ⟨j, h1, h2, _⟩ := h; omega
  | succ k ih =>
    intro i hb h
    obtain ⟨j, h1, h2, h3⟩ := h
    have hlt : ¬ MAX_THREADS ≤ i := by omega
    by_cases hi : env.create_ok i = true
    · have hj : i + 1 ≤ j := by
        rcases Nat.eq_or_lt_of_le h1 with h4 | h4
        · subst h4; rw [hi] at h3; cases h3
        · omega
      have hrest := ih (i + 1) (by omega) ⟨j, hj, by omega, h3⟩
      simp [create_threads, hlt, hi, hrest]
    · simp [create_threads, hlt, hi]

/-- The creation loop stops at slot `MAX_THREADS`: more than `MAX_THREADS` workers, all
created, overrun the arrays. -/
theorem create_threads_overrun (env : thread_env) (ppt method : Int) (k : Nat) :
    ∀ i : Nat, i ≤ MAX_THREADS → MAX_THREADS < i + k → (∀ j, env.create_ok j = true) →
      create_threads env ppt method k i = Except.error Fault.array_overrun := by
  induction k with
  | zero => intro i h1 h2 _; omega
  | succ k ih =>
    intro i h1 h2 hc
    by_cases hlt : MAX_THREADS ≤ i
    · simp [create_threads, hlt]
    · have hrest := ih (i + 1) (by omega) (by omega) hc
      simp [create_threads, hlt, hc i, hrest]

/-- The slots after the barrier, for 1 to `MAX_THREADS` threads, all created. -/
theorem threads_after_barrier_ok (fp : fp_tests) (env : thread_env)
    (total_points num_threads method : Int) (hn : 1 ≤ num_threads)
    (h16 : num_threads ≤ (MAX_THREADS : Int))
    (hc : ∀ j, j < loop_trips num_threads → env.create_ok j = true) :
    threads_after_barrier fp env total_points num_threads method =
      Except.ok (((List.range (loop_trips num_threads)).map
        (init_thread_data env (Int.tdiv total_points num_threads) method)).map
          (run_thread fp method)) := by
  have hlen : ((loop_trips num_threads : Nat) : Int) = num_threads :=
    loop_trips_of_nonneg (by omega)
  have h := create_threads_ok env (Int.tdiv total_points num_threads) method
    (loop_trips num_threads) 0 (by omega) (fun j _ h2 => hc j (by omega))
  simp only [threads_after_barrier, ll_div_safe (div_safe_of_pos total_points hn)]
  rw [List.range_eq_range']
  simp [bind, Except.bind, h, pure, Except.pure]

theorem run_thread_points_per_thread (fp : fp_tests) (method : Int) (d : thread_data_t) :
    (run_thread fp method d).points_per_thread = d.points_per_thread := by
  unfold run_thread
  split <;> rfl

theorem sum_map_const {α : Type} (l : List α) (c : Int) (f : α → Int) (h : ∀ a ∈ l, f a = c) :
    (l.map f).sum = (l.length : Int) * c := by
  induction l with
  | nil => simp
  | cons a l ih =>
    have ha := h a (List.mem_cons_self a l)
    have hl := ih (fun b hb => h b (List.mem_cons_of_mem a hb))
    simp only [List.map_cons, List.sum_cons, List.length_cons, ha, hl]
    push_cast
    ring

/-- The dartboard process worker when its division does not trap. -/
theorem dartboard_process_worker_ok (fp : fp_tests) (pid tick : Nat) (worker_id : Int)
    (shared : shared_data_t) (h : div_safe shared.total_points shared.num_workers) :
    dartboard_process_worker fp pid tick worker_id shared =
      Except.ok
        ({ shared with
            points_inside := shared.points_inside +
              (sample_loop fp.dart_inside
                (loop_trips (Int.tdiv shared.total_points shared.num_workers))
                (process_seed pid tick worker_id) 0).2 },
         ⟨worker_id, Int.tdiv shared.total_points shared.num_workers,
          (sample_loop fp.dart_inside
            (loop_trips (Int.tdiv shared.total_points shared.num_workers))
            (process_seed pid tick worker_id) 0).2⟩) := by
  simp [dartboard_process_worker, ll_div_safe h, bind, Except.bind, pure, Except.pure]

/-- The needles process worker when its division does not trap. -/
theorem needles_process_worker_ok (fp : fp_tests) (pid tick : Nat) (worker_id : Int)
    (shared : shared_data_t) (h : div_safe shared.total_points shared.num_workers) :
    needles_process_worker fp pid tick worker_id shared =
      Except.ok
        ({ shared with
            points_inside := shared.points_inside +
              (sample_loop (fp.needle_crosses shared.needle_length shared.line_spacing)
                (loop_trips (Int.tdiv shared.total_points shared.num_workers))
                (process_seed pid tick worker_id) 0).2 },
         ⟨worker_id, Int.tdiv shared.total_points shared.num_workers,
          (sample_loop (fp.needle_crosses shared.needle_length shared.line_spacing)
            (loop_trips (Int.tdiv shared.total_points shared.num_workers))
            (process_seed pid tick worker_id) 0).2⟩) := by
  simp [needles_process_worker, ll_div_safe h, bind, Except.bind, pure, Except.pure]

/-- A process worker whose division traps returns nothing. -/
theorem process_worker_faults (fp : fp_tests) (method : Int) (pid tick : Nat) (worker_id : Int)
    (shared : shared_data_t) (h : ¬ div_safe shared.total_points shared.num_workers) :
    ∃ e, (if method = 1 then dartboard_process_worker fp pid tick worker_id shared
      else needles_process_worker fp pid tick worker_id shared) = Except.error e := by
  obtain ⟨e, he⟩ := ll_div_unsafe h
  refine ⟨e, ?_⟩
  split <;> simp [dartboard_process_worker, needles_process_worker, he, bind, Except.bind]

/-- A process worker traps when the shared divisor is zero. -/
theorem process_worker_traps (fp : fp_tests) (pid tick : Nat) (worker_id : Int)
    (shared : shared_data_t) (h : shared.num_workers = 0) :
    dartboard_process_worker fp pid tick worker_id shared = Except.error Fault.int_div_by_zero ∧
    needles_process_worker fp pid tick worker_id shared = Except.error Fault.int_div_by_zero := by
  simp [dartboard_process_worker, needles_process_worker, ll_div, h, bind, Except.bind]

/-- C2: with `total_points >= 0` and `num_workers >= 1`, every worker of
`parallel_threads_monte_carlo` (which has slots for at most `MAX_THREADS` workers and overruns
them beyond) and every process worker receives `total_points / num_workers` trials (integer
division); the trial counts of the `num_workers` workers sum to at most `total_points`, and
the shortfall is `total_points mod num_workers`. -/
theorem split_shortfall (fp : fp_tests) (env : thread_env) (total_points num_workers method : Int)
    (htp : 0 ≤ total_points) (hnw : 1 ≤ num_workers) :
    (num_workers ≤ (MAX_THREADS : Int) →
      (∀ j, j < loop_trips num_workers → env.create_ok j = true) →
      ∃ thread_data,
        threads_after_barrier fp env total_points num_workers method = Except.ok thread_data ∧
        (thread_data.length : Int) = num_workers ∧
        (∀ d ∈ thread_data, d.points_per_thread = Int.tdiv total_points num_workers) ∧
        (thread_data.map (fun d => ((loop_trips d.points_per_thread : Nat) : Int))).sum
          ≤ total_points ∧
        total_points -
            (thread_data.map (fun d => ((loop_trips d.points_per_thread : Nat) : Int))).sum
          = total_points % num_workers) ∧
    ((MAX_THREADS : Int) < num_workers → (∀ j, env.create_ok j = true) →
      threads_after_barrier fp env total_points num_workers method =
        Except.error Fault.array_overrun) ∧
    (∀ (pid tick : Nat) (worker_id : Int) (shared : shared_data_t),
      shared.total_points = total_points → shared.num_workers = num_workers →
      (∃ r, dartboard_process_worker fp pid tick worker_id shared = Except.ok r ∧
        r.2.trials = Int.tdiv total_points num_workers) ∧
      (∃ r, needles_process_worker fp pid tick worker_id shared = Except.ok r ∧
        r.2.trials = Int.tdiv total_points num_workers)) ∧
    num_workers * ((loop_trips (Int.tdiv total_points num_workers) : Nat) : Int)
      ≤ total_points ∧
    total_points - num_workers * ((loop_trips (Int.tdiv total_points num_workers) : Nat) : Int)
      = total_points % num_workers := by
  obtain ⟨hq0, hq1, hq2⟩ := tdiv_split total_points num_workers htp hnw
  have hq := loop_trips_of_nonneg hq0
  have hlen : ((loop_trips num_workers : Nat) : Int) = num_workers :=
    loop_trips_of_nonneg (by omega)
  refine ⟨?_, ?_, ?_, by rw [hq]; exact hq1, by rw [hq]; exact hq2⟩
  · intro h16 hc
    refine ⟨_, threads_after_barrier_ok fp env total_points num_workers method hnw h16 hc,
      by simpa using hlen, ?_, ?_⟩
    · intro d hd
      simp only [List.mem_map, List.mem_range] at hd
      obtain ⟨d0, ⟨i, _, hi⟩, hd0⟩ := hd
      rw [← hd0, run_thread_points_per_thread, ← hi]
      rfl
    · have hsum : ((((List.range (loop_trips num_workers)).map
          (init_thread_data env (Int.tdiv total_points num_workers) method)).map
            (run_thread fp method)).map
              (fun d => ((loop_trips d.points_per_thread : Nat) : Int))).sum
          = num_workers * Int.tdiv total_points num_workers := by
        rw [sum_map_const _ (Int.tdiv total_points num_workers)]
        · simp only [List.length_map, List.length_range]
          rw [hlen]
        · intro d hd
          simp only [List.mem_map, List.mem_range] at hd
          obtain ⟨d0, ⟨i, _, hi⟩, hd0⟩ := hd
          rw [← hd0, run_thread_points_per_thread, ← hi]
          exact hq
      rw [hsum]
      exact ⟨hq1, hq2⟩
  · intro h16 hc
    have hover := create_threads_overrun env (Int.tdiv total_points num_workers) method
      (loop_trips num_workers) 0 (Nat.zero_le _) (by omega) hc
    simp [threads_after_barrier, ll_div_safe (div_safe_of_pos total_points hnw), hover, bind,
      Except.bind]
  · intro pid tick worker_id shared h1 h2
    have hsafe : div_safe shared.total_points shared.num_workers := by
      rw [h2]; exact div_safe_of_pos _ hnw
    constructor
    · refine ⟨_, dartboard_process_worker_ok fp pid tick worker_id shared hsafe, ?_⟩
      simp only [h1, h2]
    · refine ⟨_, needles_process_worker_ok fp pid tick worker_id shared hsafe, ?_⟩
      simp only [h1, h2]

theorem split_shortfall_witness :
    (0 : Int) ≤ 103 ∧ (1 : Int) ≤ 4 ∧
    (∃ thread_data,
      threads_after_barrier exact_tests sample_thread_env 103 4 1 = Except.ok thread_data ∧
      (thread_data.length : Int) = 4 ∧
      (∀ d ∈ thread_data, d.points_per_thread = 25) ∧
      (103 : Int) -
          (thread_data.map (fun d => ((loop_trips d.points_per_thread : Nat) : Int))).sum
        = 3) ∧
    (4 : Int) * ((loop_trips (Int.tdiv 103 4) : Nat) : Int) ≤ 103 ∧
    (103 : Int) - 4 * ((loop_trips (Int.tdiv 103 4) : Nat) : Int) = 103 % 4 := by
  have h := split_shortfall exact_tests sample_thread_env 103 4 1 (by decide) (by decide)
  obtain ⟨td, h1, h2, h3, _, h5⟩ := h.1 (by decide) (fun _ _ => rfl)
  exact ⟨by decide, by decide, ⟨td, h1, h2, h3, h5⟩, h.2.2.2⟩

/-! ## Counting hits -/

theorem estimate_dartboard (L D : ℚ) (count total_points : Int) (h : total_points ≠ 0) :
    estimate 1 L D count total_points =
      c_double.num (4 * (count : ℚ) / (total_points : ℚ)) := by
  have hq : (total_points : ℚ) ≠ 0 := by exact_mod_cast h
  simp [estimate, c_double.div, hq]

/-- C3: for `trials >= 1` and every seed, the dartboard run of `serial_monte_carlo` counts
`hits` with `0 <= hits <= trials` and returns exactly `4 * hits / trials`; and
`dartboard_thread_worker` leaves `0 <= points_inside <= points_per_thread` for every seed and
every `points_per_thread >= 0`, with `points_inside = 0` when `points_per_thread = 0`. -/
theorem dartboard_counts (fp : fp_tests) (tick : Nat) (trials : Int) (h : 1 ≤ trials)
    (data : thread_data_t) (hd : 0 ≤ data.points_per_thread) :
    0 ≤ serial_count fp tick trials 1 ∧
    serial_count fp tick trials 1 ≤ trials ∧
    serial_monte_carlo fp tick trials 1 =
      c_double.num (4 * (serial_count fp tick trials 1 : ℚ) / (trials : ℚ)) ∧
    0 ≤ (dartboard_thread_worker fp data).points_inside ∧
    (dartboard_thread_worker fp data).points_inside ≤ data.points_per_thread ∧
    (data.points_per_thread = 0 → (dartboard_thread_worker fp data).points_inside = 0) := by
  have hs := worker_count_bounds fp.dart_inside trials tick (by omega)
  have hw := worker_count_bounds fp.dart_inside data.points_per_thread data.seed hd
  have hc : serial_count fp tick trials 1 =
      (sample_loop fp.dart_inside (loop_trips trials) tick 0).2 := by
    simp [serial_count]
  refine ⟨by rw [hc]; exact hs.1, by rw [hc]; exact hs.2, ?_, hw.1, hw.2, ?_⟩
  · exact estimate_dartboard 1 1 _ trials (by omega)
  · intro h0
    exact worker_count_zero fp.dart_inside data.points_per_thread data.seed (by omega)

/-- One dart thrown with seed 5 falls inside. -/
theorem serial_count_dart_sample : serial_count exact_tests 5 1 1 = 1 := by
  have h1 : rand_win 5 = (1222621274, 1222621274) := by decide
  have h2 : rand_win 1222621274 = (554244747, 554244747) := by decide
  simp [serial_count, sample_loop, loop_trips, rand_double_win, h1, h2, exact_tests]
  norm_num

theorem dartboard_counts_witness :
    (1 : Int) ≤ 1 ∧
    serial_count exact_tests 5 1 1 = 1 ∧
    serial_monte_carlo exact_tests 5 1 1 = c_double.num 4 ∧
    (dartboard_thread_worker exact_tests ⟨0, 99, 7, 0, 1⟩).points_inside = 0 := by
  have h := dartboard_counts exact_tests 5 1 (by decide) ⟨0, 99, 7, 0, 1⟩ (by decide)
  have hcount := serial_count_dart_sample
  refine ⟨by decide, hcount, ?_, h.2.2.2.2.2 rfl⟩
  rw [h.2.2.1, hcount]
  norm_num

/-! ## Collecting the results of the threads -/

theorem collect_results_range (thread_data : List thread_data_t) (n : Nat) :
    collect_results thread_data n =
      ∑ i ∈ Finset.range n, (thread_data.getD i default).points_inside := by
  unfold collect_results
  induction n with
  | zero => simp
  | succ n ih => rw [List.range_succ, List.foldl_append, ih, Finset.sum_range_succ]; rfl

/-- C8: for `num_threads` in 1..16 and every content of the slots
`thread_data[0..num_threads-1]`, the total of the collection loop of
`parallel_threads_monte_carlo` is the sum over `i < num_threads` of
`thread_data[i].points_inside`, each slot once; it depends on the stored results only, so
computing it again from the same results gives the same total; and this total is the count from
which `parallel_threads_monte_carlo` computes its estimate. -/
theorem collect_results_eq_sum (thread_data : List thread_data_t) (num_threads : Nat)
    (_h1 : 1 ≤ num_threads) (_h16 : num_threads ≤ MAX_THREADS)
    (hlen : num_threads ≤ thread_data.length) :
    collect_results thread_data num_threads =
      ∑ i : Fin num_threads,
        (thread_data.get ⟨i.val, lt_of_lt_of_le i.isLt hlen⟩).points_inside ∧
    (∀ other : List thread_data_t, ∀ hother : num_threads ≤ other.length,
      (∀ i : Fin num_threads,
        (other.get ⟨i.val, lt_of_lt_of_le i.isLt hother⟩).points_inside =
          (thread_data.get ⟨i.val, lt_of_lt_of_le i.isLt hlen⟩).points_inside) →
      collect_results other num_threads = collect_results thread_data num_threads) ∧
    (∀ (fp : fp_tests) (env : thread_env) (total_points method : Int),
      threads_after_barrier fp env total_points (num_threads : Int) method =
        Except.ok thread_data →
      parallel_threads_monte_carlo fp env total_points (num_threads : Int) method =
        Except.ok (estimate method 1 1 (collect_results thread_data num_threads)
          total_points)) := by
  have key : ∀ (td : List thread_data_t) (htd : num_threads ≤ td.length),
      collect_results td num_threads =
        ∑ i : Fin num_threads, (td.get ⟨i.val, lt_of_lt_of_le i.isLt htd⟩).points_inside := by
    intro td htd
    rw [collect_results_range, Finset.sum_range]
    refine Finset.sum_congr rfl (fun i _ => ?_)
    rw [List.getD_eq_getElem td default (lt_of_lt_of_le i.isLt htd)]
    rfl
  refine ⟨key thread_data hlen, ?_, ?_⟩
  · intro other hother hsame
    rw [key other hother, key thread_data hlen]
    exact Finset.sum_congr rfl (fun i _ => hsame i)
  · intro fp env total_points method hrun
    simp [parallel_threads_monte_carlo, hrun, bind, Except.bind, pure, Except.pure, loop_trips]

theorem collect_results_eq_sum_witness :
    collect_results [⟨5, 3, 0, 0, 1⟩, ⟨5, 4, 0, 1, 1⟩] 2 = 7 := by
  have h := (collect_results_eq_sum [⟨5, 3, 0, 0, 1⟩, ⟨5, 4, 0, 1, 1⟩] 2
    (by decide) (by decide) (by decide)).1
  rw [h]
  rfl

/-! ## Printing and parsing integers -/

theorem digit_plain {c : Nat} (h : is_digit c = true) : plain c := by
  simp only [is_digit, Bool.and_eq_true, decide_eq_true_eq] at h
  simp only [plain, is_blank, is_quote, Bool.or_eq_false_iff, beq_eq_false_iff_ne]
  omega

theorem decimal_fuel_digits (fuel : Nat) :
    ∀ n : Nat, ∀ c ∈ decimal_fuel fuel n, is_digit c = true := by
  induction fuel with
  | zero => intro n c hc; simp [decimal_fuel] at hc
  | succ fuel ih =>
    intro n c hc
    simp only [decimal_fuel] at hc
    split at hc
    · simp only [List.mem_singleton] at hc
      simp only [is_digit, Bool.and_eq_true, decide_eq_true_eq]
      omega
    · simp only [List.mem_append, List.mem_singleton] at hc
      rcases hc with hc | hc
      · exact ih _ c hc
      · simp only [is_digit, Bool.and_eq_true, decide_eq_true_eq]
        omega

theorem decimal_fuel_ne_nil (fuel n : Nat) : decimal_fuel (fuel + 1) n ≠ [] := by
  simp only [decimal_fuel]
  split <;> simp

theorem decimal_nat_digits (n : Nat) : ∀ c ∈ decimal_nat n, is_digit c = true :=
  decimal_fuel_digits (n + 1) n

theorem decimal_nat_ne_nil (n : Nat) : decimal_nat n ≠ [] := decimal_fuel_ne_nil n n

/-- Reading back the digits written for `n`, in front of anything, continues with `n`. -/
theorem parse_decimal_fuel (fuel : Nat) :
    ∀ (n : Nat) (rest : c_string), n < 10 ^ fuel →
      parse_digits (decimal_fuel fuel n ++ rest) 0 = parse_digits rest n := by
  induction fuel with
  | zero => intro n rest h; simp at h; subst h; simp [decimal_fuel]
  | succ fuel ih =>
    intro n rest h
    simp only [decimal_fuel]
    split
    · next h10 =>
      have hd : is_digit (48 + n) = true := by
        simp only [is_digit, Bool.and_eq_true, decide_eq_true_eq]; omega
      simp [parse_digits, hd]
    · next h10 =>
      have hlt : n / 10 < 10 ^ fuel := by
        rw [Nat.div_lt_iff_lt_mul (by norm_num)]
        rw [pow_succ] at h
        exact h
      have hd : is_digit (48 + n % 10) = true := by
        simp only [is_digit, Bool.and_eq_true, decide_eq_true_eq]; omega
      rw [List.append_assoc, ih (n / 10) _ hlt]
      simp only [List.singleton_append, parse_digits, hd, if_true]
      congr 1
      omega

theorem parse_decimal_nat (n : Nat) (rest : c_string) :
    parse_digits (decimal_nat n ++ rest) 0 = parse_digits rest n := by
  apply parse_decimal_fuel
  calc n < 10 ^ n := Nat.lt_pow_self (by norm_num) n
    _ ≤ 10 ^ (n + 1) := Nat.pow_le_pow_right (by norm_num) (by omega)

theorem decimal_plain (n : Int) : ∀ c ∈ decimal n, plain c := by
  intro c hc
  unfold decimal at hc
  split at hc
  · simp only [List.mem_cons] at hc
    rcases hc with hc | hc
    · subst hc; exact ⟨by decide, by decide⟩
    · exact digit_plain (decimal_nat_digits _ c hc)
  · exact digit_plain (decimal_nat_digits _ c hc)

theorem decimal_ne_nil (n : Int) : decimal n ≠ [] := by
  unfold decimal
  split
  · simp
  · exact decimal_nat_ne_nil _

/-- Parsing what `%d` or `%lld` printed gives the number back. -/
theorem parse_integer_decimal (n : Int) : parse_integer (decimal n) = n := by
  unfold decimal
  split
  · next hneg =>
    have h := parse_decimal_nat n.natAbs []
    simp only [List.append_nil, parse_digits] at h
    simp only [parse_integer, List.dropWhile, is_space]
    simp only [show ((45 : Nat) == 32 || (decide (9 ≤ 45) && decide (45 ≤ 13))) = false by decide]
    simp only [if_true, h]
    omega
  · next hpos =>
    have h := parse_decimal_nat n.natAbs []
    simp only [List.append_nil, parse_digits] at h
    have hne := decimal_nat_ne_nil n.natAbs
    have hdig := decimal_nat_digits n.natAbs
    cases hl : decimal_nat n.natAbs with
    | nil => exact absurd hl hne
    | cons c cs =>
      rw [hl] at h hdig
      have hc := hdig c (List.mem_cons_self c cs)
      simp only [is_digit, Bool.and_eq_true, decide_eq_true_eq] at hc
      have hsp : is_space c = false := by
        simp only [is_space, Bool.or_eq_false_iff, beq_eq_false_iff_ne, Bool.and_eq_false_iff,
          decide_eq_false_iff_not]
        omega
      have h45 : c ≠ 45 := by omega
      have h43 : c ≠ 43 := by omega
      simp only [parse_integer, List.dropWhile, hsp, h45, h43, if_false, h]
      omega

theorem atoi_decimal (n : Int) (h1 : INT_MIN ≤ n) (h2 : n ≤ INT_MAX) : atoi (decimal n) = n := by
  simp only [atoi, clamp, parse_integer_decimal]
  omega

theorem atoll_decimal (n : Int) (h1 : LLONG_MIN ≤ n) (h2 : n ≤ LLONG_MAX) :
    atoll (decimal n) = n := by
  simp only [atoll, clamp, parse_integer_decimal]
  omega

/-- A number below `10 ^ (k + 1)` is written with at most `k + 1` digits. -/
theorem decimal_fuel_length (fuel : Nat) :
    ∀ n k : Nat, n < 10 ^ (k + 1) → (decimal_fuel fuel n).length ≤ k + 1 := by
  induction fuel with
  | zero => intro n k _; simp [decimal_fuel]
  | succ fuel ih =>
    intro n k h
    simp only [decimal_fuel]
    split
    · simp
    · next h10 =>
      cases k with
      | zero => simp at h; omega
      | succ k =>
        have hlt : n / 10 < 10 ^ (k + 1) := by
          rw [Nat.div_lt_iff_lt_mul (by norm_num)]
          rw [pow_succ] at h
          exact h
        have := ih (n / 10) k hlt
        simp only [List.length_append, List.length_singleton]
        omega

theorem decimal_length_int (n : Int) (h1 : INT_MIN ≤ n) (h2 : n ≤ INT_MAX) :
    (decimal n).length ≤ 11 := by
  simp only [INT_MIN, INT_MAX] at h1 h2
  have h := decimal_fuel_length (n.natAbs + 1) n.natAbs 9 (by norm_num; omega)
  unfold decimal
  split
  · simp only [List.length_cons, decimal_nat]; omega
  · simp only [decimal_nat]; omega

theorem decimal_length_llong (n : Int) (h1 : LLONG_MIN ≤ n) (h2 : n ≤ LLONG_MAX) :
    (decimal n).length ≤ 20 := by
  simp only [LLONG_MIN, LLONG_MAX] at h1 h2
  have h := decimal_fuel_length (n.natAbs + 1) n.natAbs 18 (by norm_num; omega)
  unfold decimal
  split
  · simp only [List.length_cons, decimal_nat]; omega
  · simp only [decimal_nat]; omega

theorem snprintf_fits (size : Nat) (text : c_string) (h : text.length < size) :
    snprintf size text = text := by
  unfold snprintf
  exact List.take_of_length_le (by omega)

/-! ## Splitting the command line -/

theorem scan_arg_word (w tail : c_string) (hw : ∀ c ∈ w, plain c)
    (ht : tail = [] ∨ ∃ t, tail = 32 :: t) : scan_arg (w ++ tail) false = (w, tail) := by
  induction w with
  | nil =>
    rcases ht with ht | ⟨t, ht⟩
    · subst ht; rfl
    · subst ht; rfl
  | cons c w ih =>
    have hc := hw c (List.mem_cons_self c w)
    have hrest := ih (fun d hd => hw d (List.mem_cons_of_mem c hd))
    simp only [List.cons_append, scan_arg, hc.1, hc.2, hrest]
    simp only [Bool.false_eq_true, if_false, Bool.not_false, Bool.and_false]
    have hrest2 : scan_arg (w.append tail) false = (w, tail) := hrest
    rw [hrest2]

theorem split_args_nil (fuel : Nat) : split_args fuel [] = [] := by
  cases fuel <;> rfl

theorem split_args_word (fuel : Nat) (w tail : c_string) (hw : ∀ c ∈ w, plain c)
    (hne : w ≠ []) (ht : tail = [] ∨ ∃ t, tail = 32 :: t) :
    split_args (fuel + 1) (32 :: (w ++ tail)) = w :: split_args fuel tail := by
  cases w with
  | nil => exact absurd rfl hne
  | cons c w =>
    have hc := hw c (List.mem_cons_self c w)
    have hscan := scan_arg_word (c :: w) tail hw ht
    simp only [List.cons_append] at hscan
    have hd : List.dropWhile is_blank (32 :: (c :: w ++ tail)) = c :: (w ++ tail) := by
      simp [List.dropWhile, hc.1, show is_blank 32 = true by decide]
    simp only [split_args, hd, hscan]

theorem split_program_quoted (exe rest : c_string) (hexe : ∀ c ∈ exe, is_quote c = false) :
    split_program (34 :: (exe ++ 34 :: rest)) = (exe, rest) := by
  have h1 : ∀ l : c_string, (∀ c ∈ l, is_quote c = false) →
      List.takeWhile (fun d => !is_quote d) (l ++ 34 :: rest) = l ∧
      List.dropWhile (fun d => !is_quote d) (l ++ 34 :: rest) = 34 :: rest := by
    intro l
    induction l with
    | nil => intro _; exact ⟨by simp [List.takeWhile, show is_quote 34 = true by decide],
        by simp [List.dropWhile, show is_quote 34 = true by decide]⟩
    | cons c l ih =>
      intro hl
      have hc := hl c (List.mem_cons_self c l)
      have hr := ih (fun d hd => hl d (List.mem_cons_of_mem c hd))
      exact ⟨by simp [List.takeWhile, hc, hr.1], by simp [List.dropWhile, hc, hr.2]⟩
  have h := h1 exe hexe
  simp [split_program, show is_quote 34 = true by decide, h.1, h.2]

theorem c_str_child_plain : ∀ c ∈ c_str "child", plain c := by
  intro c hc
  have h : c_str "child" = [99, 104, 105, 108, 100] := rfl
  rw [h] at hc
  simp only [List.mem_cons, List.mem_singleton, List.not_mem_nil, or_false] at hc
  rcases hc with h | h | h | h | h <;> subst h <;> exact ⟨by decide, by decide⟩

/-- The command line of a child splits into the six arguments that were formatted. -/
theorem split_build_cmdline (exe m : c_string) (i total_points method : Int)
    (hexe : ∀ c ∈ exe, is_quote c = false) (hm : ∀ c ∈ m, plain c) (hne : m ≠ [])
    (hexe_len : exe.length < MAX_PATH) (hm_len : m.length < MAP_NAME_MAX)
    (hi : INT_MIN ≤ i ∧ i ≤ INT_MAX) (htp : LLONG_MIN ≤ total_points ∧ total_points ≤ LLONG_MAX)
    (hmeth : INT_MIN ≤ method ∧ method ≤ INT_MAX) :
    split_cmdline (build_cmdline exe i total_points method m) =
      [exe, c_str "child", decimal i, decimal total_points, decimal method, m] := by
  have hshape : build_cmdline exe i total_points method m =
      34 :: (exe ++ 34 :: (32 :: (c_str "child" ++ (32 :: (decimal i ++
        (32 :: (decimal total_points ++ (32 :: (decimal method ++ (32 :: (m ++ [])))))))))))
      := by
    have hc : c_str " child " = 32 :: (c_str "child" ++ [32]) := rfl
    have hl1 := decimal_length_int i hi.1 hi.2
    have hl2 := decimal_length_llong total_points htp.1 htp.2
    have hl3 := decimal_length_int method hmeth.1 hmeth.2
    have hchild : (c_str "child").length = 5 := rfl
    unfold build_cmdline
    rw [snprintf_fits]
    · simp [hc]
    · simp only [MAX_PATH, MAP_NAME_MAX] at hexe_len hm_len
      simp only [hc, List.length_append, List.length_cons, List.length_nil, hchild]
      omega
  rw [hshape]
  unfold split_cmdline
  rw [split_program_quoted exe _ hexe]
  simp only []
  obtain ⟨f, hf⟩ : ∃ f, (32 :: (c_str "child" ++ (32 :: (decimal i ++
        (32 :: (decimal total_points ++ (32 :: (decimal method ++ (32 :: (m ++ [])))))))))).length
        + 1 = f + 5 := by
    have hchild : (c_str "child").length = 5 := rfl
    refine ⟨(decimal i ++ (32 :: (decimal total_points ++
      (32 :: (decimal method ++ (32 :: (m ++ []))))))).length + 3, ?_⟩
    simp only [List.length_cons, List.length_append, hchild]
    omega
  rw [hf]
  rw [split_args_word _ _ _ c_str_child_plain (by decide) (Or.inr ⟨_, rfl⟩)]
  rw [split_args_word _ _ _ (decimal_plain i) (decimal_ne_nil i) (Or.inr ⟨_, rfl⟩)]
  rw [split_args_word _ _ _ (decimal_plain total_points) (decimal_ne_nil total_points)
    (Or.inr ⟨_, rfl⟩)]
  rw [split_args_word _ _ _ (decimal_plain method) (decimal_ne_nil method) (Or.inr ⟨_, rfl⟩)]
  rw [split_args_word _ _ _ hm hne (Or.inl rfl), split_args_nil]

/-- What `main` and `run_as_child_process` read from the command line of a child. -/
theorem child_reads_cmdline (exe m : c_string) (i total_points method : Int)
    (hexe : ∀ c ∈ exe, is_quote c = false) (hm : ∀ c ∈ m, plain c) (hne : m ≠ [])
    (hexe_len : exe.length < MAX_PATH) (hm_len : m.length < MAP_NAME_MAX)
    (hi : INT_MIN ≤ i ∧ i ≤ INT_MAX) (htp : LLONG_MIN ≤ total_points ∧ total_points ≤ LLONG_MAX)
    (hmeth : INT_MIN ≤ method ∧ method ≤ INT_MAX) :
    main_runs_child (split_cmdline (build_cmdline exe i total_points method m)) = true ∧
    parse_child_args (split_cmdline (build_cmdline exe i total_points method m)) =
      some ⟨i, total_points, method, m⟩ := by
  rw [split_build_cmdline exe m i total_points method hexe hm hne hexe_len hm_len hi htp hmeth]
  constructor
  · simp [main_runs_child]
  · simp [parse_child_args, atoi_decimal i hi.1 hi.2, atoi_decimal method hmeth.1 hmeth.2,
      atoll_decimal total_points htp.1 htp.2]

/-! ## One child process -/

theorem shared_add_zero (s : shared_data_t) :
    ({ s with points_inside := s.points_inside + 0 } : shared_data_t) = s := by
  cases s
  simp

/-- A process worker adds to the shared counter a count between zero and its share. -/
theorem process_worker_adds (fp : fp_tests) (method : Int) (pid tick : Nat) (worker_id : Int)
    (s : shared_data_t) (r : shared_data_t × worker_report)
    (h : (if method = 1 then dartboard_process_worker fp pid tick worker_id s
          else needles_process_worker fp pid tick worker_id s) = Except.ok r) :
    div_safe s.total_points s.num_workers ∧ r.2.worker_id = worker_id ∧
    r.2.trials = Int.tdiv s.total_points s.num_workers ∧
    0 ≤ r.2.local_count ∧ r.2.local_count ≤ share_of s ∧
    r.1 = { s with points_inside := s.points_inside + r.2.local_count } := by
  by_cases hz : ¬ div_safe s.total_points s.num_workers
  · obtain ⟨e, he⟩ := process_worker_faults fp method pid tick worker_id s hz
    rw [he] at h
    cases h
  · rw [not_not] at hz
    have hb : ∀ hit : ℚ → ℚ → Bool,
        0 ≤ (sample_loop hit (loop_trips (Int.tdiv s.total_points s.num_workers))
          (process_seed pid tick worker_id) 0).2 ∧
        (sample_loop hit (loop_trips (Int.tdiv s.total_points s.num_workers))
          (process_seed pid tick worker_id) 0).2 ≤ share_of s := by
      intro hit
      have := sample_loop_bounds hit (loop_trips (Int.tdiv s.total_points s.num_workers))
        (process_seed pid tick worker_id) 0
      unfold share_of
      omega
    rw [dartboard_process_worker_ok fp pid tick worker_id s hz,
      needles_process_worker_ok fp pid tick worker_id s hz] at h
    split at h
    · injection h with h
      subst h
      exact ⟨hz, rfl, rfl, (hb _).1, (hb _).2, rfl⟩
    · injection h with h
      subst h
      exact ⟨hz, rfl, rfl, (hb _).1, (hb _).2, rfl⟩

/-- A child process leaves the shared record unchanged except for the counter, to which it
adds a count between zero and its share. -/
theorem run_as_child_process_shared (fp : fp_tests) (env : child_env) (segment : c_string)
    (argv : List c_string) (s : shared_data_t) :
    ∃ d : Int, 0 ≤ d ∧ d ≤ share_of s ∧
      (run_as_child_process fp env segment argv s).shared =
        { s with points_inside := s.points_inside + d } := by
  have hq : (0 : Int) ≤ share_of s := by unfold share_of; omega
  have hsame : ∃ d : Int, 0 ≤ d ∧ d ≤ share_of s ∧
      s = { s with points_inside := s.points_inside + d } :=
    ⟨0, le_refl 0, hq, (shared_add_zero s).symm⟩
  unfold run_as_child_process
  split
  · exact hsame
  · next args _ =>
    split
    · exact hsame
    · split
      · exact hsame
      · simp only []
        split
        · next r hr =>
          have h := process_worker_adds fp args.method env.pid env.tick args.worker_id s r hr
          exact ⟨r.2.local_count, h.2.2.2.1, h.2.2.2.2.1, h.2.2.2.2.2⟩
        · exact hsame

/-- A child process is ended by a fault only when the division of its worker traps. -/
theorem run_as_child_process_no_trap (fp : fp_tests) (env : child_env) (segment : c_string)
    (argv : List c_string) (s : shared_data_t) (h : div_safe s.total_points s.num_workers) :
    (run_as_child_process fp env segment argv s).status = Except.ok 0 ∨
    (run_as_child_process fp env segment argv s).status = Except.ok 1 := by
  unfold run_as_child_process
  split
  · exact Or.inr rfl
  · next args _ =>
    split
    · exact Or.inr rfl
    · split
      · exact Or.inr rfl
      · simp only []
        split
        · exact Or.inl rfl
        · next e he =>
          rw [dartboard_process_worker_ok fp env.pid env.tick args.worker_id s h,
            needles_process_worker_ok fp env.pid env.tick args.worker_id s h] at he
          split at he <;> cases he

/-- A child whose bootstrap succeeds runs its worker on the share of the shared record. -/
theorem run_as_child_process_works (fp : fp_tests) (env : child_env) (segment : c_string)
    (argv : List c_string) (s : shared_data_t) (args : child_args)
    (hargs : parse_child_args argv = some args) (hname : args.map_name = segment)
    (hopen : env.open_mapping_ok = true) (hview : env.map_view_ok = true)
    (hnw : div_safe s.total_points s.num_workers) :
    (run_as_child_process fp env segment argv s).status = Except.ok 0 ∧
    ∃ rep, (run_as_child_process fp env segment argv s).report = some rep ∧
      rep.worker_id = args.worker_id ∧
      rep.trials = Int.tdiv s.total_points s.num_workers ∧
      0 ≤ rep.local_count ∧ rep.local_count ≤ share_of s ∧
      (run_as_child_process fp env segment argv s).shared =
        { s with points_inside := s.points_inside + rep.local_count } := by
  unfold run_as_child_process
  simp only [hargs, hname, hopen, hview, decide_True, Bool.and_self, Bool.not_true,
    Bool.false_eq_true, if_false]
  split
  · next r hr =>
    have h := process_worker_adds fp args.method env.pid env.tick args.worker_id s r hr
    exact ⟨rfl, r.2, rfl, h.2.1, h.2.2.1, h.2.2.2.1, h.2.2.2.2.1, h.2.2.2.2.2⟩
  · next e he =>
    rw [dartboard_process_worker_ok fp env.pid env.tick args.worker_id s hnw,
      needles_process_worker_ok fp env.pid env.tick args.worker_id s hnw] at he
    split at he <;> cases he

/-! ## The spawn loop and the wait loop -/

/-- One iteration of the spawn loop changes the shared record only by adding to the counter,
at most one share. -/
theorem spawn_one_shared (fp : fp_tests) (env : process_env) (total_points method : Int)
    (map_name : c_string) (i : Nat) (s : shared_data_t) :
    ∃ d : Int, 0 ≤ d ∧ d ≤ share_of s ∧
      (spawn_one fp env total_points method map_name i s).shared =
        { s with points_inside := s.points_inside + d } := by
  have hq : (0 : Int) ≤ share_of s := by unfold share_of; omega
  have hsame : ∃ d : Int, 0 ≤ d ∧ d ≤ share_of s ∧
      s = { s with points_inside := s.points_inside + d } :=
    ⟨0, le_refl 0, hq, (shared_add_zero s).symm⟩
  unfold spawn_one
  simp only []
  split
  · split
    · exact run_as_child_process_shared fp (env.child i) map_name _ s
    · exact hsame
  · exact hsame

/-- The handle slot of an iteration is live exactly when the spawn succeeded. -/
theorem spawn_one_live (fp : fp_tests) (env : process_env) (total_points method : Int)
    (map_name : c_string) (i : Nat) (s : shared_data_t) :
    (spawn_one fp env total_points method map_name i s).live = env.spawn_ok i := by
  unfold spawn_one
  simp only []
  split
  · next h => split <;> exact h.symm
  · next h => simp only [Bool.not_eq_true] at h; exact h.symm

/-- A spawn loop that ends has run its first iteration within the array, then the rest. -/
theorem spawn_children_succ (fp : fp_tests) (env : process_env) (total_points method : Int)
    (map_name : c_string) (k i : Nat) (s : shared_data_t) (st : spawn_state)
    (h : spawn_children fp env total_points method map_name (k + 1) i s = Except.ok st) :
    i < MAX_PROCESSES ∧
    ∃ rest : spawn_state,
      spawn_children fp env total_points method map_name k (i + 1)
        (spawn_one fp env total_points method map_name i s).shared = Except.ok rest ∧
      st = ⟨rest.shared, (spawn_one fp env total_points method map_name i s).live :: rest.pi,
        (spawn_one fp env total_points method map_name i s).started ++ rest.children⟩ := by
  simp only [spawn_children] at h
  split at h
  · cases h
  · next hlt =>
    split at h
    · next rest hrest =>
      injection h with h
      exact ⟨by omega, rest, hrest, h.symm⟩
    · cases h

/-- The spawn loop ends when its indices stay within the array `pi`. -/
theorem spawn_children_runs (fp : fp_tests) (env : process_env) (total_points method : Int)
    (map_name : c_string) (k : Nat) :
    ∀ (i : Nat) (s : shared_data_t), i + k ≤ MAX_PROCESSES →
      ∃ st, spawn_children fp env total_points method map_name k i s = Except.ok st := by
  induction k with
  | zero => intro i s _; exact ⟨_, rfl⟩
  | succ k ih =>
    intro i s hb
    obtain ⟨rest, hrest⟩ := ih (i + 1)
      (spawn_one fp env total_points method map_name i s).shared (by omega)
    have hlt : ¬ MAX_PROCESSES ≤ i := by omega
    refine ⟨⟨rest.shared, (spawn_one fp env total_points method map_name i s).live :: rest.pi,
      (spawn_one fp env total_points method map_name i s).started ++ rest.children⟩, ?_⟩
    simp only [spawn_children, hlt, if_false, hrest]

/-- The spawn loop overruns the array `pi` when asked for more than `MAX_PROCESSES` workers. -/
theorem spawn_children_overrun (fp : fp_tests) (env : process_env) (total_points method : Int)
    (map_name : c_string) (k : Nat) :
    ∀ (i : Nat) (s : shared_data_t), i ≤ MAX_PROCESSES → MAX_PROCESSES < i + k →
      spawn_children fp env total_points method map_name k i s =
        Except.error Fault.array_overrun := by
  induction k with
  | zero => intro i s h1 h2; omega
  | succ k ih =>
    intro i s h1 h2
    by_cases hlt : MAX_PROCESSES ≤ i
    · simp only [spawn_children, hlt, if_true]
    · have hrest := ih (i + 1) (spawn_one fp env total_points method map_name i s).shared
        (by omega) (by omega)
      simp only [spawn_children, hlt, if_false, hrest]

/-- The spawn loop changes the shared record only by adding to the counter, at most one
share per worker. -/
theorem spawn_children_shared (fp : fp_tests) (env : process_env) (total_points method : Int)
    (map_name : c_string) (k : Nat) :
    ∀ (i : Nat) (s : shared_data_t) (st : spawn_state),
      spawn_children fp env total_points method map_name k i s = Except.ok st →
      ∃ d : Int, 0 ≤ d ∧ d ≤ (k : Int) * share_of s ∧
        st.shared = { s with points_inside := s.points_inside + d } := by
  induction k with
  | zero =>
    intro i s st h
    simp only [spawn_children] at h
    injection h with h
    rw [← h]
    exact ⟨0, le_refl 0, by simp, (shared_add_zero s).symm⟩
  | succ k ih =>
    intro i s st h
    obtain ⟨_, rest, hrest, hst⟩ := spawn_children_succ fp env total_points method map_name
      k i s st h
    obtain ⟨d1, h10, h11, h12⟩ := spawn_one_shared fp env total_points method map_name i s
    obtain ⟨d2, h20, h21, h22⟩ := ih (i + 1) _ rest hrest
    rw [h12] at h21 h22
    have hsame : share_of { s with points_inside := s.points_inside + d1 } = share_of s := rfl
    rw [hsame] at h21
    refine ⟨d1 + d2, by omega, ?_, ?_⟩
    · push_cast
      nlinarith
    · rw [hst]
      simp only []
      rw [h22]
      simp only [add_assoc]

/-- The handle slots after the spawn loop: live exactly for the workers whose spawn succeeded. -/
theorem spawn_children_pi (fp : fp_tests) (env : process_env) (total_points method : Int)
    (map_name : c_string) (k : Nat) :
    ∀ (i : Nat) (s : shared_data_t) (st : spawn_state),
      spawn_children fp env total_points method map_name k i s = Except.ok st →
      st.pi = (List.range' i k).map env.spawn_ok := by
  induction k with
  | zero =>
    intro i s st h
    simp only [spawn_children] at h
    injection h with h
    rw [← h]
    rfl
  | succ k ih =>
    intro i s st h
    obtain ⟨_, rest, hrest, hst⟩ := spawn_children_succ fp env total_points method map_name
      k i s st h
    rw [hst]
    simp only [List.range'_succ, List.map_cons]
    rw [ih (i + 1) _ rest hrest, spawn_one_live]

/-- The wait loop waits on the workers whose spawn succeeded, and on no other. -/
theorem wait_children_spawned (spawn_ok : Nat → Bool) (n : Nat) :
    wait_children ((List.range n).map spawn_ok) n = (List.range n).filter spawn_ok := by
  unfold wait_children
  apply List.filter_congr
  intro j hj
  have hj2 : j < n := List.mem_range.mp hj
  rw [List.getD_eq_getElem _ _ (by simpa using hj2)]
  simp

/-! ## The aggregate of the process model -/

/-- A run of the process coordinator whose set-up succeeds, for at most `MAX_PROCESSES`
processes: the spawn loop ends, the record the parent reads is the initial record with a
counter between zero and one share per requested worker, the parent waited on the spawned
workers, and the estimate is computed from that counter. -/
theorem run_processes_ok (fp : fp_tests) (env : process_env)
    (total_points num_processes method : Int)
    (h16 : num_processes ≤ (MAX_PROCESSES : Int))
    (hmap : env.create_mapping_ok = true) (hview : env.map_view_ok = true)
    (hmutex : env.create_mutex_ok = true) :
    ∃ run : process_run, ∃ st : spawn_state, ∃ d : Int,
      spawn_children fp env total_points method (format_map_name env.pid env.tick_map)
        (loop_trips num_processes) 0
        (init_shared env total_points num_processes method) = Except.ok st ∧
      run_processes fp env total_points num_processes method = Except.ok run ∧
      parallel_processes_monte_carlo fp env total_points num_processes method =
        Except.ok run.pi_estimate ∧
      0 ≤ d ∧
      d ≤ ((loop_trips num_processes : Nat) : Int) *
        share_of (init_shared env total_points num_processes method) ∧
      run.shared =
        { init_shared env total_points num_processes method with points_inside := d } ∧
      run.waited = (List.range (loop_trips num_processes)).filter env.spawn_ok ∧
      run.children = st.children ∧
      run.shared = st.shared ∧
      run.pi_estimate = estimate method 1 1 d total_points := by
  have hk : 0 + loop_trips num_processes ≤ MAX_PROCESSES := by
    unfold loop_trips
    omega
  obtain ⟨st, hst⟩ := spawn_children_runs fp env total_points method
    (format_map_name env.pid env.tick_map) (loop_trips num_processes) 0
    (init_shared env total_points num_processes method) hk
  obtain ⟨d, h0, h1, h2⟩ := spawn_children_shared fp env total_points method
    (format_map_name env.pid env.tick_map) (loop_trips num_processes) 0
    (init_shared env total_points num_processes method) st hst
  have hpi := spawn_children_pi fp env total_points method
    (format_map_name env.pid env.tick_map) (loop_trips num_processes) 0
    (init_shared env total_points num_processes method) st hst
  have hd : (init_shared env total_points num_processes method).points_inside + d = d := by
    simp [init_shared]
  rw [hd] at h2
  have hrun : run_processes fp env total_points num_processes method = Except.ok
      { shared := st.shared
        waited := wait_children st.pi (loop_trips num_processes)
        children := st.children
        pi_estimate := estimate method st.shared.needle_length st.shared.line_spacing
          st.shared.points_inside total_points } := by
    simp [run_processes, hmap, hview, hmutex, hst]
  refine ⟨_, st, d, hst, hrun, ?_, h0, h1, h2, ?_, rfl, rfl, ?_⟩
  · simp [parallel_processes_monte_carlo, hrun, Except.map]
  · simp only []
    rw [hpi, ← List.range_eq_range']
    exact wait_children_spawned env.spawn_ok (loop_trips num_processes)
  · simp only []
    rw [h2]
    rfl

/-- A run asked for more than `MAX_PROCESSES` processes overruns the array `pi`. -/
theorem run_processes_overrun (fp : fp_tests) (env : process_env)
    (total_points num_processes method : Int)
    (h16 : (MAX_PROCESSES : Int) < num_processes)
    (hmap : env.create_mapping_ok = true) (hview : env.map_view_ok = true)
    (hmutex : env.create_mutex_ok = true) :
    run_processes fp env total_points num_processes method =
      Except.error Fault.array_overrun := by
  have hk : MAX_PROCESSES < 0 + loop_trips num_processes := by
    unfold loop_trips
    omega
  have h := spawn_children_overrun fp env total_points method
    (format_map_name env.pid env.tick_map) (loop_trips num_processes) 0
    (init_shared env total_points num_processes method) (Nat.zero_le _) hk
  simp [run_processes, hmap, hview, hmutex, h]

/-- Running the workers of some started children one after the other adds to the counter at
most one share per child. -/
theorem run_workers_shared (fp : fp_tests) (method : Int) (children : List (Nat × Nat × Int)) :
    ∀ s : shared_data_t, div_safe s.total_points s.num_workers →
      ∃ d : Int, 0 ≤ d ∧ d ≤ (children.length : Int) * share_of s ∧
        run_workers fp method children s =
          Except.ok { s with points_inside := s.points_inside + d } := by
  induction children with
  | nil =>
    intro s _
    exact ⟨0, le_refl 0, by simp, by rw [shared_add_zero]; rfl⟩
  | cons c cs ih =>
    intro s hs
    have hq : (0 : Int) ≤ share_of s := by unfold share_of; omega
    simp only [run_workers]
    split
    · next r hr =>
      have h := process_worker_adds fp method c.1 c.2.1 c.2.2 s r hr
      have hr1 : div_safe r.1.total_points r.1.num_workers := by rw [h.2.2.2.2.2]; exact hs
      obtain ⟨d, hd0, hd1, hd2⟩ := ih r.1 hr1
      have hsame : share_of r.1 = share_of s := by rw [h.2.2.2.2.2]; rfl
      rw [hsame] at hd1
      refine ⟨r.2.local_count + d, by omega, ?_, ?_⟩
      · have := h.2.2.2.2.1
        simp only [List.length_cons]
        push_cast
        nlinarith
      · rw [hd2, h.2.2.2.2.2]
        simp only [add_assoc]
    · next e he =>
      rw [dartboard_process_worker_ok fp c.1 c.2.1 c.2.2 s hs,
        needles_process_worker_ok fp c.1 c.2.1 c.2.2 s hs] at he
      split at he <;> cases he

/-- Distinct worker indices below `n` are at most `n`. -/
theorem distinct_indices_le (ids : List Int) (n : Int) (hn : 0 ≤ n)
    (hr : ∀ x ∈ ids, 0 ≤ x ∧ x < n) (hd : ids.Nodup) : (ids.length : Int) ≤ n := by
  have hsub : ids.toFinset ⊆ Finset.Ico 0 n := by
    intro x hx
    rw [List.mem_toFinset] at hx
    rw [Finset.mem_Ico]
    exact hr x hx
  have hcard := Finset.card_le_card hsub
  rw [List.toFinset_card_of_nodup hd, Int.card_Ico] at hcard
  omega

/-- C1: process model with atomic merges. For `total_points >= 0`, `num_workers` in
{1, 2, 4, 8} and either method: after the parent has initialised the shared record and the
workers of any set of started children (distinct indices below `num_workers`, any seeds, in
any order of their merges) have run to completion, `0 <= points_inside <= total_points`; and
the record read by the parent at the end of `parallel_processes_monte_carlo`, whatever spawns
failed, satisfies the same bounds. -/
theorem process_aggregate_invariant (fp : fp_tests) (env : process_env)
    (total_points num_workers method : Int) (htp : 0 ≤ total_points)
    (hnw : num_workers = 1 ∨ num_workers = 2 ∨ num_workers = 4 ∨ num_workers = 8) :
    (∀ children : List (Nat × Nat × Int),
      (∀ c ∈ children, 0 ≤ c.2.2 ∧ c.2.2 < num_workers) →
      (children.map (fun c => c.2.2)).Nodup →
      ∃ shared : shared_data_t,
        run_workers fp method children (init_shared env total_points num_workers method) =
          Except.ok shared ∧
        shared.total_points = total_points ∧
        0 ≤ shared.points_inside ∧ shared.points_inside ≤ shared.total_points) ∧
    (env.create_mapping_ok = true → env.map_view_ok = true → env.create_mutex_ok = true →
      ∃ run : process_run,
        run_processes fp env total_points num_workers method = Except.ok run ∧
        run.shared.total_points = total_points ∧
        0 ≤ run.shared.points_inside ∧ run.shared.points_inside ≤ run.shared.total_points) := by
  have hpos : 1 ≤ num_workers := by omega
  obtain ⟨hq0, hq1, _⟩ := tdiv_split total_points num_workers htp hpos
  have hshare : share_of (init_shared env total_points num_workers method) =
      Int.tdiv total_points num_workers := loop_trips_of_nonneg hq0
  constructor
  · intro children hids hnodup
    have hlen : (children.length : Int) ≤ num_workers := by
      have h := distinct_indices_le (children.map (fun c => c.2.2)) num_workers (by omega)
        (by
          intro x hx
          rw [List.mem_map] at hx
          obtain ⟨c, hc, hcx⟩ := hx
          rw [← hcx]
          exact hids c hc) hnodup
      simpa using h
    obtain ⟨d, hd0, hd1, hd2⟩ := run_workers_shared fp method children
      (init_shared env total_points num_workers method) (div_safe_of_pos total_points hpos)
    rw [hshare] at hd1
    refine ⟨_, hd2, rfl, ?_, ?_⟩
    · simp only [init_shared]
      omega
    · simp only [init_shared]
      nlinarith
  · intro hmap hview hmutex
    obtain ⟨run, _, d, _, hrun, _, hd0, hd1, hsh, _⟩ :=
      run_processes_ok fp env total_points num_workers method
        (by simp only [MAX_PROCESSES]; omega) hmap hview hmutex
    rw [hshare, loop_trips_of_nonneg (by omega : (0 : Int) ≤ num_workers)] at hd1
    refine ⟨run, hrun, by rw [hsh]; rfl, by rw [hsh]; exact hd0, ?_⟩
    rw [hsh]
    simp only [init_shared]
    exact le_trans hd1 hq1

theorem process_aggregate_invariant_witness :
    (∃ shared : shared_data_t,
      run_workers exact_tests 1 [(5003, 2003, 3), (5000, 2000, 0), (5001, 2001, 1)]
        (init_shared sample_process_env 103 4 1) = Except.ok shared ∧
      shared.total_points = 103 ∧
      0 ≤ shared.points_inside ∧ shared.points_inside ≤ shared.total_points) ∧
    (∃ run : process_run,
      run_processes exact_tests sample_process_env 103 4 1 = Except.ok run ∧
      run.shared.total_points = 103 ∧
      0 ≤ run.shared.points_inside ∧ run.shared.points_inside ≤ run.shared.total_points) := by
  have h := process_aggregate_invariant exact_tests sample_process_env 103 4 1 (by decide)
    (Or.inr (Or.inr (Or.inl rfl)))
  exact ⟨h.1 [(5003, 2003, 3), (5000, 2000, 0), (5001, 2001, 1)] (by decide) (by decide),
    h.2 rfl rfl rfl⟩

/-! ## The estimates -/

theorem estimate_needles (method : Int) (count total_points : Int) (hm : method ≠ 1) :
    estimate method 1 1 count total_points =
      if count = 0 then c_double.num 0
      else c_double.num ((2 * 1 * (total_points : ℚ)) / (1 * (count : ℚ))) := by
  unfold estimate
  rw [if_neg hm]
  split
  · rfl
  · next hc =>
    have hq : (1 : ℚ) * (count : ℚ) ≠ 0 := by
      rw [one_mul]
      exact_mod_cast hc
    simp only [c_double.div, if_neg hq]

theorem estimate_zero_hits (method : Int) (total_points : Int)
    (h : method ≠ 1 ∨ total_points ≠ 0) : estimate method 1 1 0 total_points = c_double.num 0 := by
  by_cases hm : method = 1
  · have ht : total_points ≠ 0 := by
      rcases h with h | h
      · exact absurd hm h
      · exact h
    rw [hm, estimate_dartboard 1 1 0 total_points ht]
    simp
  · rw [estimate_needles method 0 total_points hm]
    simp

theorem estimate_dartboard_no_trials (count : Int) :
    estimate 1 1 1 count 0 = if count = 0 then c_double.nan else c_double.inf := by
  simp [estimate, c_double.div]

theorem parallel_threads_of_slots (fp : fp_tests) (env : thread_env)
    (total_points num_threads method : Int) (thread_data : List thread_data_t)
    (h : threads_after_barrier fp env total_points num_threads method = Except.ok thread_data) :
    parallel_threads_monte_carlo fp env total_points num_threads method =
      Except.ok (estimate method 1 1 (collect_results thread_data (loop_trips num_threads))
        total_points) := by
  simp [parallel_threads_monte_carlo, h, bind, Except.bind, pure, Except.pure]

/-- C4: for the needles method (`method != 1`) and every `total_points`, each of
`serial_monte_carlo`, `parallel_threads_monte_carlo` (for 1 to `MAX_THREADS` threads, all
created) and `parallel_processes_monte_carlo` (for at most `MAX_PROCESSES` processes, the
set-up succeeding) returns exactly 0 when its aggregate crossing count is 0, and otherwise
`(2 * needle_length * total_points) / (line_spacing * hits)` with
`needle_length = line_spacing = 1`. -/
theorem needles_estimate (fp : fp_tests) (tick : Nat) (tenv : thread_env) (penv : process_env)
    (total_points num_threads num_processes method : Int) (hm : method ≠ 1)
    (hn : 1 ≤ num_threads) (hn16 : num_threads ≤ (MAX_THREADS : Int))
    (hc : ∀ j, j < loop_trips num_threads → tenv.create_ok j = true)
    (hp16 : num_processes ≤ (MAX_PROCESSES : Int))
    (hmap : penv.create_mapping_ok = true) (hview : penv.map_view_ok = true)
    (hmutex : penv.create_mutex_ok = true) :
    serial_monte_carlo fp tick total_points method =
      (if serial_count fp tick total_points method = 0 then c_double.num 0
       else c_double.num ((2 * 1 * (total_points : ℚ)) /
        (1 * (serial_count fp tick total_points method : ℚ)))) ∧
    (∃ thread_data : List thread_data_t,
      threads_after_barrier fp tenv total_points num_threads method = Except.ok thread_data ∧
      parallel_threads_monte_carlo fp tenv total_points num_threads method =
        Except.ok
          (if collect_results thread_data (loop_trips num_threads) = 0 then c_double.num 0
           else c_double.num ((2 * 1 * (total_points : ℚ)) /
            (1 * (collect_results thread_data (loop_trips num_threads) : ℚ))))) ∧
    (∃ run : process_run,
      run_processes fp penv total_points num_processes method = Except.ok run ∧
      parallel_processes_monte_carlo fp penv total_points num_processes method =
        Except.ok run.pi_estimate ∧
      run.shared.needle_length = 1 ∧ run.shared.line_spacing = 1 ∧
      run.pi_estimate =
        (if run.shared.points_inside = 0 then c_double.num 0
         else c_double.num ((2 * run.shared.needle_length * (total_points : ℚ)) /
          (run.shared.line_spacing * (run.shared.points_inside : ℚ))))) := by
  refine ⟨estimate_needles method _ total_points hm, ?_, ?_⟩
  · have hslots := threads_after_barrier_ok fp tenv total_points num_threads method hn hn16 hc
    refine ⟨_, hslots, ?_⟩
    rw [parallel_threads_of_slots fp tenv total_points num_threads method _ hslots]
    rw [estimate_needles method _ total_points hm]
  · obtain ⟨run, _, d, _, hrun, hpar, _, _, hsh, _, _, _, hest⟩ :=
      run_processes_ok fp penv total_points num_processes method hp16 hmap hview hmutex
    refine ⟨run, hrun, hpar, by rw [hsh]; rfl, by rw [hsh]; rfl, ?_⟩
    rw [hest, estimate_needles method d total_points hm, hsh]
    simp only [init_shared]

/-- One needle dropped with seed 7 crosses a line. -/
theorem serial_count_needle_sample : serial_count exact_tests 7 1 2 = 1 := by
  have h1 : rand_win 7 = (1282168116, 1282168116) := by decide
  have h2 : rand_win 1282168116 = (642666333, 642666333) := by decide
  simp [serial_count, sample_loop, loop_trips, rand_double_win, h1, h2, exact_tests]
  norm_num

theorem needles_estimate_witness :
    serial_count exact_tests 7 1 2 = 1 ∧
    serial_monte_carlo exact_tests 7 1 2 = c_double.num 2 := by
  have hcount := serial_count_needle_sample
  have h := (needles_estimate exact_tests 7 sample_thread_env sample_process_env 1 4 4 2
    (by decide) (by decide) (by decide) (fun _ _ => rfl) (by decide) rfl rfl rfl).1
  rw [hcount] at h
  refine ⟨hcount, ?_⟩
  rw [h]
  norm_num

/-! ## Zero workers, zero trials -/

/-- With `num_threads = 0` the first statement of `parallel_threads_monte_carlo`,
`total_points / num_threads`, divides by zero. -/
theorem threads_zero_workers_trap (fp : fp_tests) (env : thread_env)
    (total_points method : Int) :
    parallel_threads_monte_carlo fp env total_points 0 method =
      Except.error Fault.int_div_by_zero := by
  simp [parallel_threads_monte_carlo, threads_after_barrier, ll_div, bind, Except.bind]

theorem run_thread_no_trials (fp : fp_tests) (method : Int) (d : thread_data_t)
    (h : d.points_per_thread ≤ 0) : (run_thread fp method d).points_inside = 0 := by
  unfold run_thread
  split
  · exact worker_count_zero fp.dart_inside d.points_per_thread d.seed h
  · exact worker_count_zero (fp.needle_crosses 1 1) d.points_per_thread d.seed h

theorem collect_results_zero (thread_data : List thread_data_t) (n : Nat)
    (h : ∀ d ∈ thread_data, d.points_inside = 0) : collect_results thread_data n = 0 := by
  rw [collect_results_range]
  apply Finset.sum_eq_zero
  intro i _
  by_cases hi : i < thread_data.length
  · rw [List.getD_eq_getElem _ _ hi]
    exact h _ (List.getElem_mem _)
  · rw [List.getD_eq_default _ _ (by omega)]
    rfl

/-- With `total_points = 0` and 1 to `MAX_THREADS` threads, all created, the threads count
nothing. -/
theorem threads_no_trials (fp : fp_tests) (env : thread_env) (num_threads method : Int)
    (hn : 1 ≤ num_threads) (h16 : num_threads ≤ (MAX_THREADS : Int))
    (hc : ∀ j, j < loop_trips num_threads → env.create_ok j = true) :
    parallel_threads_monte_carlo fp env 0 num_threads method =
      Except.ok (estimate method 1 1 0 0) := by
  have hslots := threads_after_barrier_ok fp env 0 num_threads method hn h16 hc
  rw [parallel_threads_of_slots fp env 0 num_threads method _ hslots]
  rw [collect_results_zero]
  intro d hd
  simp only [List.mem_map, List.mem_range] at hd
  obtain ⟨d0, ⟨i, _, hi⟩, hd0⟩ := hd
  rw [← hd0]
  apply run_thread_no_trials
  rw [← hi]
  simp [init_thread_data]

/-- The child of one iteration is not ended by a fault when the division of its worker does
not trap. -/
theorem spawn_one_no_trap (fp : fp_tests) (env : process_env) (total_points method : Int)
    (map_name : c_string) (i : Nat) (s : shared_data_t)
    (hs : div_safe s.total_points s.num_workers) :
    ∀ c ∈ (spawn_one fp env total_points method map_name i s).started,
      c.2.status = Except.ok 0 ∨ c.2.status = Except.ok 1 := by
  intro c hc
  unfold spawn_one at hc
  simp only [] at hc
  split at hc
  · split at hc
    · simp only [List.mem_singleton] at hc
      rw [hc]
      exact run_as_child_process_no_trap fp (env.child i) map_name _ s hs
    · simp at hc
  · simp at hc

/-- No child of the spawn loop is ended by a fault when the division of the workers does not
trap. -/
theorem spawn_children_no_trap (fp : fp_tests) (env : process_env) (total_points method : Int)
    (map_name : c_string) (k : Nat) :
    ∀ (i : Nat) (s : shared_data_t) (st : spawn_state),
      spawn_children fp env total_points method map_name k i s = Except.ok st →
      div_safe s.total_points s.num_workers →
      ∀ c ∈ st.children, c.2.status = Except.ok 0 ∨ c.2.status = Except.ok 1 := by
  induction k with
  | zero =>
    intro i s st h _ c hc
    simp only [spawn_children] at h
    injection h with h
    rw [← h] at hc
    simp at hc
  | succ k ih =>
    intro i s st h hs c hc
    obtain ⟨_, rest, hrest, hst⟩ := spawn_children_succ fp env total_points method map_name
      k i s st h
    rw [hst] at hc
    simp only [List.mem_append] at hc
    rcases hc with hc | hc
    · exact spawn_one_no_trap fp env total_points method map_name i s hs c hc
    · obtain ⟨d, _, _, hd⟩ := spawn_one_shared fp env total_points method map_name i s
      refine ih (i + 1) _ rest hrest ?_ c hc
      rw [hd]
      exact hs

/-- With `total_points = 0` and 1 to `MAX_PROCESSES` processes, the processes count nothing,
and no child divides by zero. -/
theorem processes_no_trials (fp : fp_tests) (env : process_env) (num_processes method : Int)
    (hn : 1 ≤ num_processes) (h16 : num_processes ≤ (MAX_PROCESSES : Int))
    (hmap : env.create_mapping_ok = true) (hview : env.map_view_ok = true)
    (hmutex : env.create_mutex_ok = true) :
    ∃ run : process_run,
      run_processes fp env 0 num_processes method = Except.ok run ∧
      parallel_processes_monte_carlo fp env 0 num_processes method =
        Except.ok (estimate method 1 1 0 0) ∧
      (∀ c ∈ run.children, c.2.status = Except.ok 0 ∨ c.2.status = Except.ok 1) := by
  obtain ⟨run, st, d, hst, hrun, hpar, hd0, hd1, _, _, hch, _, hest⟩ :=
    run_processes_ok fp env 0 num_processes method h16 hmap hview hmutex
  have hshare : share_of (init_shared env 0 num_processes method) = 0 := by
    simp [share_of, init_shared, loop_trips]
  rw [hshare, mul_zero] at hd1
  have hd : d = 0 := by omega
  rw [hd] at hest
  refine ⟨run, hrun, by rw [hpar, hest], ?_⟩
  rw [hch]
  exact spawn_children_no_trap fp env 0 method _ _ 0 _ st hst (div_safe_of_pos 0 hn)

/-- With `num_processes = 0` no child is started and the parent waits on nothing. -/
theorem processes_zero_workers (fp : fp_tests) (env : process_env) (total_points method : Int)
    (hmap : env.create_mapping_ok = true) (hview : env.map_view_ok = true)
    (hmutex : env.create_mutex_ok = true) :
    ∃ run : process_run,
      run_processes fp env total_points 0 method = Except.ok run ∧
      parallel_processes_monte_carlo fp env total_points 0 method =
        Except.ok (estimate method 1 1 0 total_points) ∧
      run.children = [] ∧ run.waited = [] := by
  obtain ⟨run, st, d, hst, hrun, hpar, hd0, hd1, _, hw, hch, _, hest⟩ :=
    run_processes_ok fp env total_points 0 method (by decide) hmap hview hmutex
  have hz : loop_trips 0 = 0 := rfl
  rw [hz] at hd1 hw hst
  have hd : d = 0 := by
    simp only [Nat.cast_zero, zero_mul] at hd1
    omega
  rw [hd] at hest
  simp only [spawn_children] at hst
  injection hst with hst
  refine ⟨run, hrun, by rw [hpar, hest], ?_, ?_⟩
  · rw [hch, ← hst]
  · rw [hw]; rfl

theorem estimate_no_hits (method total_points : Int) :
    estimate method 1 1 0 total_points =
      if method = 1 ∧ total_points = 0 then c_double.nan else c_double.num 0 := by
  by_cases h : method = 1 ∧ total_points = 0
  · rw [if_pos h, h.1, h.2, estimate_dartboard_no_trials]
    rfl
  · rw [if_neg h]
    apply estimate_zero_hits
    by_cases hm : method = 1
    · exact Or.inr (fun ht => h ⟨hm, ht⟩)
    · exact Or.inl hm

theorem estimate_no_trials (method : Int) :
    estimate method 1 1 0 0 = if method = 1 then c_double.nan else c_double.num 0 := by
  rw [estimate_no_hits]
  simp

theorem serial_no_trials (fp : fp_tests) (tick : Nat) (method : Int) :
    serial_monte_carlo fp tick 0 method = estimate method 1 1 0 0 := by
  have h : serial_count fp tick 0 method = 0 := by
    unfold serial_count
    split <;> rfl
  simp only [serial_monte_carlo, h]

/-- C5 (counterexample): with `num_threads = 0`, `parallel_threads_monte_carlo` divides by zero
in `total_points / num_threads`, for both methods; with `total_points = 0` the dartboard
estimate of each of the three strategies is `0.0 / 0`, a NaN and not 0. -/
theorem zero_inputs_divide_by_zero :
    parallel_threads_monte_carlo exact_tests sample_thread_env 1000 0 1 =
      Except.error Fault.int_div_by_zero ∧
    parallel_threads_monte_carlo exact_tests sample_thread_env 1000 0 2 =
      Except.error Fault.int_div_by_zero ∧
    serial_monte_carlo exact_tests 5 0 1 = c_double.nan ∧
    parallel_threads_monte_carlo exact_tests sample_thread_env 0 4 1 =
      Except.ok c_double.nan ∧
    parallel_processes_monte_carlo exact_tests sample_process_env 0 4 1 =
      Except.ok c_double.nan := by
  refine ⟨threads_zero_workers_trap _ _ _ _, threads_zero_workers_trap _ _ _ _, ?_, ?_, ?_⟩
  · rw [serial_no_trials, estimate_no_trials]
    rfl
  · rw [threads_no_trials exact_tests sample_thread_env 4 1 (by decide) (by decide)
      (fun _ _ => rfl), estimate_no_trials]
    rfl
  · obtain ⟨_, _, h, _⟩ := processes_no_trials exact_tests sample_process_env 4 1 (by decide)
      (by decide) rfl rfl rfl
    rw [h, estimate_no_trials]
    rfl

/-- C5 (amended): for every method, a run of `parallel_processes_monte_carlo` with
`num_workers = 0`, other than the dartboard with `total_points = 0`, starts no child, so it
never evaluates `total_points / num_workers`, and returns 0; and for the needles method a run
of any of the three strategies with `total_points = 0` (threads and processes with a number
of workers between 1 and 16, the size of their arrays) performs no division by zero and
returns 0. -/
theorem zero_inputs_behaviour (fp : fp_tests) (tick : Nat) (tenv : thread_env)
    (penv : process_env) (total_points num_workers method : Int)
    (hn : 1 ≤ num_workers) (h16 : num_workers ≤ 16)
    (hc : ∀ j, j < loop_trips num_workers → tenv.create_ok j = true)
    (hmap : penv.create_mapping_ok = true) (hview : penv.map_view_ok = true)
    (hmutex : penv.create_mutex_ok = true) :
    ((method ≠ 1 ∨ total_points ≠ 0) →
      ∃ run : process_run,
        run_processes fp penv total_points 0 method = Except.ok run ∧
        run.children = [] ∧ run.waited = [] ∧
        parallel_processes_monte_carlo fp penv total_points 0 method =
          Except.ok (c_double.num 0)) ∧
    (method ≠ 1 →
      serial_monte_carlo fp tick 0 method = c_double.num 0 ∧
      parallel_threads_monte_carlo fp tenv 0 num_workers method = Except.ok (c_double.num 0) ∧
      ∃ run : process_run,
        run_processes fp penv 0 num_workers method = Except.ok run ∧
        (∀ c ∈ run.children, c.2.status = Except.ok 0 ∨ c.2.status = Except.ok 1) ∧
        parallel_processes_monte_carlo fp penv 0 num_workers method =
          Except.ok (c_double.num 0)) := by
  constructor
  · intro h
    obtain ⟨run, hrun, hpar, hch, hw⟩ :=
      processes_zero_workers fp penv total_points method hmap hview hmutex
    exact ⟨run, hrun, hch, hw, by rw [hpar, estimate_zero_hits method total_points h]⟩
  · intro hm
    have he : estimate method 1 1 0 0 = c_double.num 0 :=
      estimate_zero_hits method 0 (Or.inl hm)
    refine ⟨by rw [serial_no_trials, he], ?_, ?_⟩
    · rw [threads_no_trials fp tenv num_workers method hn
        (by simp only [MAX_THREADS]; exact_mod_cast h16) hc, he]
    · obtain ⟨run, hrun, hpar, hst⟩ :=
        processes_no_trials fp penv num_workers method hn
          (by simp only [MAX_PROCESSES]; exact_mod_cast h16) hmap hview hmutex
      exact ⟨run, hrun, hst, by rw [hpar, he]⟩

theorem zero_inputs_behaviour_witness :
    serial_monte_carlo exact_tests 5 0 2 = c_double.num 0 ∧
    parallel_threads_monte_carlo exact_tests sample_thread_env 0 4 2 =
      Except.ok (c_double.num 0) ∧
    parallel_processes_monte_carlo exact_tests sample_process_env 0 4 2 =
      Except.ok (c_double.num 0) ∧
    parallel_processes_monte_carlo exact_tests sample_process_env 1000 0 2 =
      Except.ok (c_double.num 0) := by
  have h := zero_inputs_behaviour exact_tests 5 sample_thread_env sample_process_env 1000 4 2
    (by decide) (by decide) (fun _ _ => rfl) rfl rfl rfl
  obtain ⟨_, _, _, _, hp0⟩ := h.1 (Or.inl (by decide))
  obtain ⟨hs, ht, _, _, _, hp⟩ := h.2 (by decide)
  exact ⟨hs, ht, hp, hp0⟩

/-! ## The bootstrap of a child -/

theorem plain_of_all_plain (l : c_string) (h : all_plain l = true) : ∀ c ∈ l, plain c := by
  intro c hc
  have := List.all_eq_true.mp h c hc
  simp only [Bool.and_eq_true, Bool.not_eq_true'] at this
  exact this

theorem quote_free_of_no_quote (l : c_string) (h : no_quote l = true) :
    ∀ c ∈ l, is_quote c = false := by
  intro c hc
  have := List.all_eq_true.mp h c hc
  simpa using this

theorem decimal_nat_plain (n : Nat) : ∀ c ∈ decimal_nat n, plain c :=
  fun c hc => digit_plain (decimal_nat_digits n c hc)

/-- The name the parent gives to the file mapping has no blank and no double quote, is not
empty and fits in `map_name`. -/
theorem format_map_name_plain (pid tick : Nat) :
    (∀ c ∈ format_map_name pid tick, plain c) ∧ format_map_name pid tick ≠ [] ∧
    (format_map_name pid tick).length < MAP_NAME_MAX := by
  refine ⟨?_, ?_, ?_⟩
  · intro c hc
    have hc2 := List.mem_of_mem_take hc
    simp only [List.mem_append, List.mem_singleton] at hc2
    rcases hc2 with ((((hc2 | hc2) | hc2) | hc2) | hc2) | hc2
    · exact plain_of_all_plain (c_str "Local") (by decide) c hc2
    · subst hc2; exact ⟨by decide, by decide⟩
    · exact plain_of_all_plain (c_str "MonteCarloMap_") (by decide) c hc2
    · exact decimal_nat_plain pid c hc2
    · subst hc2; exact ⟨by decide, by decide⟩
    · exact decimal_nat_plain tick c hc2
  · have h : c_str "Local" = [76, 111, 99, 97, 108] := rfl
    simp [format_map_name, snprintf, MAP_NAME_MAX, h]
  · simp only [format_map_name, snprintf, MAP_NAME_MAX, List.length_take]
    omega

/-- C10: for every worker index `i` (an `int`), `total_points` (a `long long`) and `method`
(an `int`), with the path of the executable as `GetModuleFileNameA` leaves it in `exe_path`
(shorter than `MAX_PATH`, no double quote in it): for the map name
`Local\MonteCarloMap_<pid>_<tick>` that the parent formats, whatever the process id and the
tick count, and for every other non-empty name without blank, tab or double quote that fits in
`map_name`, the command line the parent builds splits into, in order,
`exe, "child", decimal(i), decimal(total_points), decimal(method), m`; `main` sends it to
`run_as_child_process`; the check `argc >= 6` passes; and the parse of the child recovers
exactly `(i, total_points, method, m)`. An argument list with fewer than 6 entries makes
`run_as_child_process` return 1 without touching the shared record or running a worker. -/
theorem bootstrap_round_trip (fp : fp_tests) (cenv : child_env) (segment : c_string)
    (shared : shared_data_t) (exe : c_string) (i total_points method : Int)
    (hi : INT_MIN ≤ i ∧ i ≤ INT_MAX)
    (htp : LLONG_MIN ≤ total_points ∧ total_points ≤ LLONG_MAX)
    (hmeth : INT_MIN ≤ method ∧ method ≤ INT_MAX)
    (hexe : ∀ c ∈ exe, is_quote c = false) (hexe_len : exe.length < MAX_PATH)
    (short : List c_string) (hshort : short.length < 6) :
    (∀ pid tick : Nat,
      split_cmdline (build_cmdline exe i total_points method (format_map_name pid tick)) =
        [exe, c_str "child", decimal i, decimal total_points, decimal method,
          format_map_name pid tick] ∧
      main_runs_child
        (split_cmdline (build_cmdline exe i total_points method (format_map_name pid tick))) =
          true ∧
      6 ≤ (split_cmdline
        (build_cmdline exe i total_points method (format_map_name pid tick))).length ∧
      parse_child_args
        (split_cmdline (build_cmdline exe i total_points method (format_map_name pid tick))) =
          some ⟨i, total_points, method, format_map_name pid tick⟩) ∧
    (∀ m : c_string, m ≠ [] → (∀ c ∈ m, plain c) → m.length < MAP_NAME_MAX →
      split_cmdline (build_cmdline exe i total_points method m) =
        [exe, c_str "child", decimal i, decimal total_points, decimal method, m] ∧
      main_runs_child (split_cmdline (build_cmdline exe i total_points method m)) = true ∧
      6 ≤ (split_cmdline (build_cmdline exe i total_points method m)).length ∧
      parse_child_args (split_cmdline (build_cmdline exe i total_points method m)) =
        some ⟨i, total_points, method, m⟩) ∧
    (run_as_child_process fp cenv segment short shared).status = Except.ok 1 ∧
    (run_as_child_process fp cenv segment short shared).shared = shared ∧
    (run_as_child_process fp cenv segment short shared).report = none := by
  have hall : ∀ m : c_string, m ≠ [] → (∀ c ∈ m, plain c) → m.length < MAP_NAME_MAX →
      split_cmdline (build_cmdline exe i total_points method m) =
        [exe, c_str "child", decimal i, decimal total_points, decimal method, m] ∧
      main_runs_child (split_cmdline (build_cmdline exe i total_points method m)) = true ∧
      6 ≤ (split_cmdline (build_cmdline exe i total_points method m)).length ∧
      parse_child_args (split_cmdline (build_cmdline exe i total_points method m)) =
        some ⟨i, total_points, method, m⟩ := by
    intro m hne hm hm_len
    have hsplit := split_build_cmdline exe m i total_points method hexe hm hne hexe_len hm_len
      hi htp hmeth
    have hread := child_reads_cmdline exe m i total_points method hexe hm hne hexe_len hm_len
      hi htp hmeth
    exact ⟨hsplit, hread.1, by rw [hsplit]; simp, hread.2⟩
  have hnone : parse_child_args short = none := by simp [parse_child_args, hshort]
  refine ⟨fun pid tick => hall _ (format_map_name_plain pid tick).2.1
    (format_map_name_plain pid tick).1 (format_map_name_plain pid tick).2.2, hall, ?_, ?_, ?_⟩ <;>
    simp [run_as_child_process, hnone]

theorem bootstrap_round_trip_witness :
    parse_child_args
        (split_cmdline (build_cmdline (c_str "C:/Program Files/mc.exe") 3 1000000 (-2)
          (format_map_name 4242 1000))) =
      some ⟨3, 1000000, -2, format_map_name 4242 1000⟩ ∧
    parse_child_args
        (split_cmdline (build_cmdline (c_str "C:/Program Files/mc.exe") 3 1000000 (-2)
          (c_str "Map_7"))) =
      some ⟨3, 1000000, -2, c_str "Map_7"⟩ ∧
    (run_as_child_process exact_tests (sample_process_env.child 3) (format_map_name 4242 1000)
      [c_str "mc.exe", c_str "child", c_str "3"]
      (init_shared sample_process_env 1000000 4 1)).status = Except.ok 1 := by
  have h := bootstrap_round_trip exact_tests (sample_process_env.child 3)
    (format_map_name 4242 1000) (init_shared sample_process_env 1000000 4 1)
    (c_str "C:/Program Files/mc.exe") 3 1000000 (-2)
    (by decide) (by decide) (by decide)
    (quote_free_of_no_quote _ (by decide)) (by decide)
    [c_str "mc.exe", c_str "child", c_str "3"] (by decide)
  exact ⟨(h.1 4242 1000).2.2.2,
    (h.2.1 (c_str "Map_7") (by decide) (plain_of_all_plain _ (by decide)) (by decide)).2.2.2,
    h.2.2.1⟩

/-! ## Spawn failures -/

/-- The child of one iteration, when the command line can be read back and a started child
opens the mapping: it exists exactly when the spawn succeeded, it ran its worker on the share
fixed by the shared record, and the counter grew by its count. -/
theorem spawn_one_reports (fp : fp_tests) (env : process_env) (total_points method : Int)
    (map_name : c_string) (hexe : ∀ c ∈ env.exe_path, is_quote c = false)
    (hexe_len : env.exe_path.length < MAX_PATH)
    (hm : ∀ c ∈ map_name, plain c) (hne : map_name ≠ []) (hm_len : map_name.length < MAP_NAME_MAX)
    (htp : LLONG_MIN ≤ total_points ∧ total_points ≤ LLONG_MAX)
    (hmeth : INT_MIN ≤ method ∧ method ≤ INT_MAX)
    (i : Nat) (s : shared_data_t) (hi : i < 2147483648)
    (hs : div_safe s.total_points s.num_workers)
    (hboot : env.spawn_ok i = true →
      (env.child i).open_mapping_ok = true ∧ (env.child i).map_view_ok = true) :
    (spawn_one fp env total_points method map_name i s).started.map (fun c => c.1) =
      (if env.spawn_ok i = true then [i] else []) ∧
    (∀ c ∈ (spawn_one fp env total_points method map_name i s).started,
      c.2.status = Except.ok 0 ∧
      ∃ rep, c.2.report = some rep ∧ rep.worker_id = (c.1 : Int) ∧
        rep.trials = Int.tdiv s.total_points s.num_workers ∧
        0 ≤ rep.local_count ∧ rep.local_count ≤ share_of s) ∧
    (spawn_one fp env total_points method map_name i s).shared.points_inside =
      s.points_inside +
        ((spawn_one fp env total_points method map_name i s).started.map
          (fun c => child_count c.2)).sum := by
  by_cases hok : env.spawn_ok i = true
  · have hint : INT_MIN ≤ (i : Int) ∧ (i : Int) ≤ INT_MAX := by
      simp only [INT_MIN, INT_MAX]
      omega
    have hread := child_reads_cmdline env.exe_path map_name (i : Int) total_points method
      hexe hm hne hexe_len hm_len hint htp hmeth
    have hb := hboot hok
    obtain ⟨hst, rep, hrep, hid, htr, hc0, hc1, hsh⟩ :=
      run_as_child_process_works fp (env.child i) map_name
        (split_cmdline (build_cmdline env.exe_path (i : Int) total_points method map_name))
        s _ hread.2 rfl hb.1 hb.2 hs
    have hone : spawn_one fp env total_points method map_name i s =
        ⟨(run_as_child_process fp (env.child i) map_name
            (split_cmdline (build_cmdline env.exe_path (i : Int) total_points method map_name))
            s).shared, true,
          [(i, run_as_child_process fp (env.child i) map_name
            (split_cmdline (build_cmdline env.exe_path (i : Int) total_points method map_name))
            s)]⟩ := by
      simp only [spawn_one, hok, hread.1, if_true]
    rw [hone]
    refine ⟨by simp [hok], ?_, ?_⟩
    · intro c hc
      simp only [List.mem_singleton] at hc
      rw [hc]
      exact ⟨hst, rep, hrep, hid, htr, hc0, hc1⟩
    · simp only [List.map_cons, List.map_nil, List.sum_cons, List.sum_nil, child_count, hrep]
      rw [hsh]
      simp
  · have hok2 : env.spawn_ok i = false := by simpa using hok
    have hone : spawn_one fp env total_points method map_name i s = ⟨s, false, []⟩ := by
      simp only [spawn_one, hok2, Bool.false_eq_true, if_false]
    rw [hone]
    simp [hok2]

/-- The children of the spawn loop, when the command line can be read back and each started
child opens the mapping: they are the workers whose spawn succeeded, each ran its worker on
the share fixed by the shared record, and the counter grew by the sum of their counts. -/
theorem spawn_children_reports (fp : fp_tests) (env : process_env) (total_points method : Int)
    (map_name : c_string) (hexe : ∀ c ∈ env.exe_path, is_quote c = false)
    (hexe_len : env.exe_path.length < MAX_PATH)
    (hm : ∀ c ∈ map_name, plain c) (hne : map_name ≠ []) (hm_len : map_name.length < MAP_NAME_MAX)
    (htp : LLONG_MIN ≤ total_points ∧ total_points ≤ LLONG_MAX)
    (hmeth : INT_MIN ≤ method ∧ method ≤ INT_MAX) (k : Nat) :
    ∀ (i : Nat) (s : shared_data_t) (st : spawn_state),
      spawn_children fp env total_points method map_name k i s = Except.ok st →
      i + k ≤ 2147483648 → div_safe s.total_points s.num_workers →
      (∀ j, i ≤ j → j < i + k → env.spawn_ok j = true →
        (env.child j).open_mapping_ok = true ∧ (env.child j).map_view_ok = true) →
      st.children.map (fun c => c.1) = (List.range' i k).filter env.spawn_ok ∧
      (∀ c ∈ st.children,
        c.2.status = Except.ok 0 ∧
        ∃ rep, c.2.report = some rep ∧ rep.worker_id = (c.1 : Int) ∧
          rep.trials = Int.tdiv s.total_points s.num_workers ∧
          0 ≤ rep.local_count ∧ rep.local_count ≤ share_of s) ∧
      st.shared.points_inside =
        s.points_inside + (st.children.map (fun c => child_count c.2)).sum := by
  induction k with
  | zero =>
    intro i s st h _ _ _
    simp only [spawn_children] at h
    injection h with h
    rw [← h]
    simp
  | succ k ih =>
    intro i s st h hik hs hboot
    obtain ⟨_, rest, hrest, hst⟩ := spawn_children_succ fp env total_points method map_name
      k i s st h
    obtain ⟨o1, o2, o3⟩ := spawn_one_reports fp env total_points method map_name hexe hexe_len
      hm hne hm_len htp hmeth i s (by omega) hs (hboot i (le_refl i) (by omega))
    obtain ⟨d, _, _, hd⟩ := spawn_one_shared fp env total_points method map_name i s
    have hs2 : div_safe (spawn_one fp env total_points method map_name i s).shared.total_points
        (spawn_one fp env total_points method map_name i s).shared.num_workers := by
      rw [hd]; exact hs
    obtain ⟨ih1, ih2, ih3⟩ := ih (i + 1) _ rest hrest (by omega) hs2
      (fun j h1 h2 => hboot j (by omega) (by omega))
    rw [hst]
    refine ⟨?_, ?_, ?_⟩
    · simp only [List.map_append, o1, ih1, List.range'_succ, List.filter_cons]
      by_cases hok : env.spawn_ok i = true
      · simp [hok]
      · simp [hok]
    · intro c hc
      simp only [List.mem_append] at hc
      rcases hc with hc | hc
      · exact o2 c hc
      · have h := ih2 c hc
        rw [hd] at h
        exact h
    · simp only [List.map_append, List.sum_append]
      rw [ih3, o3]
      ring

/-- C9: process model with a spawn oracle. For `total_points >= 1`, a number of processes
between 1 and 16 (4 in particular) and any set of failing spawns, when the set-up succeeds,
the path of the executable has no double quote and each started child opens the mapping:
`parallel_processes_monte_carlo` returns an estimate; the parent waits exactly on the workers
whose spawn succeeded, a failed one being skipped; each started child runs
`total_points / num_processes` trials, with the requested `num_processes`, and counts at most
that many hits; the counter read by the parent is the sum of their counts; and the estimate
divides by the requested `total_points` (dartboard: `4 * points_inside / total_points`). -/
theorem spawn_failure_tolerated (fp : fp_tests) (env : process_env)
    (total_points num_processes method : Int)
    (htp : 1 ≤ total_points) (hmax : total_points ≤ LLONG_MAX)
    (hn : 1 ≤ num_processes) (hn16 : num_processes ≤ (MAX_PROCESSES : Int))
    (hmeth : INT_MIN ≤ method ∧ method ≤ INT_MAX)
    (hexe : ∀ c ∈ env.exe_path, is_quote c = false)
    (hexe_len : env.exe_path.length < MAX_PATH)
    (hmap : env.create_mapping_ok = true) (hview : env.map_view_ok = true)
    (hmutex : env.create_mutex_ok = true)
    (hboot : ∀ j, env.spawn_ok j = true →
      (env.child j).open_mapping_ok = true ∧ (env.child j).map_view_ok = true) :
    ∃ run : process_run,
      run_processes fp env total_points num_processes method = Except.ok run ∧
      parallel_processes_monte_carlo fp env total_points num_processes method =
        Except.ok run.pi_estimate ∧
      run.waited = (List.range num_processes.toNat).filter env.spawn_ok ∧
      (∀ j, env.spawn_ok j = false → j ∉ run.waited) ∧
      run.children.map (fun c => c.1) = run.waited ∧
      (∀ c ∈ run.children,
        c.2.status = Except.ok 0 ∧
        ∃ rep, c.2.report = some rep ∧ rep.worker_id = (c.1 : Int) ∧
          rep.trials = Int.tdiv total_points num_processes ∧
          0 ≤ rep.local_count ∧ rep.local_count ≤ Int.tdiv total_points num_processes) ∧
      run.shared.total_points = total_points ∧
      run.shared.num_workers = num_processes ∧
      run.shared.points_inside = (run.children.map (fun c => child_count c.2)).sum ∧
      run.pi_estimate = estimate method 1 1 run.shared.points_inside total_points ∧
      (method = 1 →
        run.pi_estimate =
          c_double.num (4 * (run.shared.points_inside : ℚ) / (total_points : ℚ))) := by
  obtain ⟨run, st, d, hst, hrun, hpar, _, _, hsh, hw, hch, hshst, hest⟩ :=
    run_processes_ok fp env total_points num_processes method hn16 hmap hview hmutex
  have hnames := format_map_name_plain env.pid env.tick_map
  have hk : 0 + loop_trips num_processes ≤ 2147483648 := by
    have := loop_trips_of_nonneg (show (0 : Int) ≤ num_processes by omega)
    simp only [MAX_PROCESSES] at hn16
    omega
  obtain ⟨h1, h2, h3⟩ := spawn_children_reports fp env total_points method
    (format_map_name env.pid env.tick_map) hexe hexe_len hnames.1 hnames.2.1 hnames.2.2
    ⟨by simp only [LLONG_MIN]; omega, hmax⟩ hmeth (loop_trips num_processes) 0
    (init_shared env total_points num_processes method) st hst hk
    (div_safe_of_pos total_points hn)
    (fun j _ _ hj => hboot j hj)
  rw [← hch] at h1 h2
  rw [← hshst] at h3
  have hpi : run.shared.points_inside = d := by rw [hsh]
  have hest2 : run.pi_estimate = estimate method 1 1 run.shared.points_inside total_points := by
    rw [hest, hpi]
  refine ⟨run, hrun, hpar, hw, ?_, ?_, ?_, by rw [hsh]; rfl, by rw [hsh]; rfl, ?_, hest2, ?_⟩
  · intro j hj hmem
    rw [hw, List.mem_filter] at hmem
    rw [hj] at hmem
    exact absurd hmem.2 (by decide)
  · rw [h1, hw, ← List.range_eq_range']
  · intro c hc
    obtain ⟨hst, rep, hrep, hid, htr, hc0, hc1⟩ := h2 c hc
    have hshare : share_of (init_shared env total_points num_processes method) =
        Int.tdiv total_points num_processes :=
      loop_trips_of_nonneg (tdiv_split total_points num_processes (by omega) hn).1
    rw [hshare] at hc1
    exact ⟨hst, rep, hrep, hid, htr, hc0, hc1⟩
  · rw [h3, hch]
    simp [init_shared]
  · intro hm1
    rw [hest2, hm1]
    exact estimate_dartboard 1 1 _ total_points (by omega)

theorem spawn_failure_tolerated_witness :
    ∃ run : process_run,
      run_processes exact_tests sample_process_env 103 4 1 = Except.ok run ∧
      parallel_processes_monte_carlo exact_tests sample_process_env 103 4 1 =
        Except.ok run.pi_estimate ∧
      run.waited = [0, 1, 3] ∧
      run.children.map (fun c => c.1) = [0, 1, 3] ∧
      (∀ c ∈ run.children, ∃ rep, c.2.report = some rep ∧ rep.trials = 25) ∧
      run.pi_estimate =
        c_double.num (4 * (run.shared.points_inside : ℚ) / ((103 : Int) : ℚ)) := by
  obtain ⟨run, hrun, hpar, hw, _, hch, hrep, _, _, _, _, hest⟩ :=
    spawn_failure_tolerated exact_tests sample_process_env 103 4 1 (by decide) (by decide)
      (by decide) (by decide) (by decide) (quote_free_of_no_quote _ (by decide)) (by decide)
      rfl rfl rfl (fun _ _ => ⟨rfl, rfl⟩)
  have hlist : (List.range (4 : Int).toNat).filter sample_process_env.spawn_ok = [0, 1, 3] := by
    decide
  rw [hlist] at hw
  refine ⟨run, hrun, hpar, hw, by rw [hch, hw], ?_, hest rfl⟩
  intro c hc
  obtain ⟨_, rep, h1, _, h2, _⟩ := hrep c hc
  exact ⟨rep, h1, by rw [h2]; decide⟩

/-! ## The seeds of the threads -/

/-- Two seeds of thread workers are equal exactly when the tick count and the worker index
combine to the same value. -/
theorem thread_seed_eq_iff (tick_i tick_j tid i j : Nat) (hti : tick_i < 2 ^ 32)
    (htj : tick_j < 2 ^ 32) (htid : tid < 2 ^ 32) (hi : i < MAX_THREADS) (hj : j < MAX_THREADS) :
    thread_seed tick_i i tid = thread_seed tick_j j tid ↔
      tick_i ^^^ (i + 1) = tick_j ^^^ (j + 1) := by
  simp only [MAX_THREADS] at hi hj
  have h1 : tick_i ^^^ (i + 1) ^^^ tid < 2 ^ 32 :=
    Nat.xor_lt_two_pow (Nat.xor_lt_two_pow hti (by omega)) htid
  have h2 : tick_j ^^^ (j + 1) ^^^ tid < 2 ^ 32 :=
    Nat.xor_lt_two_pow (Nat.xor_lt_two_pow htj (by omega)) htid
  unfold thread_seed
  rw [Nat.mod_eq_of_lt h1, Nat.mod_eq_of_lt h2]
  exact Nat.xor_left_inj

/-- Workers set up at the same tick count receive different seeds. -/
theorem thread_seed_ne_same_tick (tick tid i j : Nat) (ht : tick < 2 ^ 32) (htid : tid < 2 ^ 32)
    (hi : i < MAX_THREADS) (hj : j < MAX_THREADS) (hij : i ≠ j) :
    thread_seed tick i tid ≠ thread_seed tick j tid := by
  rw [Ne, thread_seed_eq_iff tick tick tid i j ht ht htid hi hj, Nat.xor_right_inj]
  omega

/-- Two slots with the same seed and the same number of trials give the same count. -/
theorem run_thread_same_seed (fp : fp_tests) (method : Int) (a b : thread_data_t)
    (hs : a.seed = b.seed) (hp : a.points_per_thread = b.points_per_thread) :
    (run_thread fp method a).points_inside = (run_thread fp method b).points_inside := by
  unfold run_thread dartboard_thread_worker needles_thread_worker
  split <;> simp only [hs, hp]

/-- C11 (failing input): with 8 threads, a tick count of 1008 while workers 0 to 6 are set up
and of 1023 when worker 7 is set up, the creation loop gives workers 6 and 7 the same seed,
`1008 ^ 7 ^ 77 = 1023 ^ 8 ^ 77 = 954`, so both workers draw the same points and count the
same hits. -/
theorem thread_seeds_collide :
    colliding_thread_env.tick 6 = 1008 ∧ colliding_thread_env.tick 7 = 1023 ∧
    ∃ thread_data : List thread_data_t,
      create_threads colliding_thread_env (Int.tdiv 1000 8) 1 8 0 = Except.ok thread_data ∧
      (thread_data.getD 6 default).seed = 954 ∧
      (thread_data.getD 7 default).seed = 954 ∧
      ∀ fp : fp_tests,
        (run_thread fp 1 (thread_data.getD 6 default)).points_inside =
          (run_thread fp 1 (thread_data.getD 7 default)).points_inside := by
  refine ⟨rfl, rfl, _, rfl, by decide, by decide, ?_⟩
  intro fp
  exact run_thread_same_seed fp 1 _ _ (by decide) (by decide)

/-! ## The trials behind the estimate of the threads -/

/-- The dartboard estimate of the threads divides the aggregate count by `total_points`. -/
theorem threads_dartboard_estimate (fp : fp_tests) (env : thread_env)
    (total_points num_threads : Int) (htp : total_points ≠ 0) (hn : 1 ≤ num_threads)
    (h16 : num_threads ≤ (MAX_THREADS : Int))
    (hc : ∀ j, j < loop_trips num_threads → env.create_ok j = true) :
    ∃ thread_data : List thread_data_t,
      threads_after_barrier fp env total_points num_threads 1 = Except.ok thread_data ∧
      parallel_threads_monte_carlo fp env total_points num_threads 1 =
        Except.ok (c_double.num
          (4 * (collect_results thread_data (loop_trips num_threads) : ℚ) /
            (total_points : ℚ))) := by
  have hslots := threads_after_barrier_ok fp env total_points num_threads 1 hn h16 hc
  refine ⟨_, hslots, ?_⟩
  rw [parallel_threads_of_slots fp env total_points num_threads 1 _ hslots,
    estimate_dartboard 1 1 _ total_points htp]

/-- The trials the threads run: `num_threads` times the share, which is `total_points` less
the remainder of the division. -/
theorem threads_trials_run (fp : fp_tests) (env : thread_env)
    (total_points num_threads method : Int) (htp : 0 ≤ total_points) (hn : 1 ≤ num_threads)
    (h16 : num_threads ≤ (MAX_THREADS : Int))
    (hc : ∀ j, j < loop_trips num_threads → env.create_ok j = true) :
    ∃ thread_data : List thread_data_t,
      threads_after_barrier fp env total_points num_threads method = Except.ok thread_data ∧
      (thread_data.map (fun d => ((loop_trips d.points_per_thread : Nat) : Int))).sum =
        total_points - total_points % num_threads := by
  obtain ⟨hq0, _, hq2⟩ := tdiv_split total_points num_threads htp hn
  have hlen : ((loop_trips num_threads : Nat) : Int) = num_threads :=
    loop_trips_of_nonneg (by omega)
  refine ⟨_, threads_after_barrier_ok fp env total_points num_threads method hn h16 hc, ?_⟩
  rw [sum_map_const _ (Int.tdiv total_points num_threads)]
  · simp only [List.length_map, List.length_range]
    rw [hlen]
    omega
  · intro d hd
    simp only [List.mem_map, List.mem_range] at hd
    obtain ⟨d0, ⟨i, _, hi⟩, hd0⟩ := hd
    rw [← hd0, run_thread_points_per_thread, ← hi]
    exact loop_trips_of_nonneg hq0

/-- One dart thrown with seed 40 falls inside. -/
theorem dart_sample_40 : (sample_loop exact_tests.dart_inside 1 40 0).2 = 1 := by
  have h1 : rand_win 40 = (1190949185, 1190949185) := by decide
  have h2 : rand_win 1190949185 = (1027880678, 1027880678) := by decide
  simp [sample_loop, rand_double_win, h1, h2, exact_tests]
  norm_num

/-- One dart thrown with seed 42 falls inside. -/
theorem dart_sample_42 : (sample_loop exact_tests.dart_inside 1 42 0).2 = 1 := by
  have h1 : rand_win 42 = (1250496027, 1250496027) := by decide
  have h2 : rand_win 1250496027 = (1116302264, 1116302264) := by decide
  simp [sample_loop, rand_double_win, h1, h2, exact_tests]
  norm_num

/-- C12 (counterexample): with `total_points = 3` and 2 threads, each worker runs `3 / 2 = 1`
trial, so `N = 2` trials are run; with the seeds 40 and 42 both darts fall inside, `H = 2`;
`parallel_threads_monte_carlo` returns `4 * 2 / 3 = 8/3`, which is not `4 * H / N = 4`. -/
theorem threads_estimate_counts_dropped_trials :
    create_threads sample_thread_env (Int.tdiv 3 2) 1 2 0 =
      Except.ok [⟨1, 12345, 40, 0, 1⟩, ⟨1, 12345, 42, 1, 1⟩] ∧
    ∃ thread_data : List thread_data_t,
      threads_after_barrier exact_tests sample_thread_env 3 2 1 = Except.ok thread_data ∧
      (thread_data.map (fun d => ((loop_trips d.points_per_thread : Nat) : Int))).sum = 2 ∧
      collect_results thread_data 2 = 2 ∧
      parallel_threads_monte_carlo exact_tests sample_thread_env 3 2 1 =
        Except.ok (c_double.num (8 / 3)) ∧
      c_double.num (8 / 3) ≠ c_double.num (4 * 2 / 2) := by
  have hslots := threads_after_barrier_ok exact_tests sample_thread_env 3 2 1 (by decide)
    (by decide) (fun _ _ => rfl)
  have hcount : collect_results
      (((List.range (loop_trips 2)).map
        (init_thread_data sample_thread_env (Int.tdiv 3 2) 1)).map (run_thread exact_tests 1))
      2 = 2 := by
    have h40 := dart_sample_40
    have h42 := dart_sample_42
    have h0 : (run_thread exact_tests 1
        (init_thread_data sample_thread_env (Int.tdiv 3 2) 1 0)).points_inside = 1 := h40
    have h1 : (run_thread exact_tests 1
        (init_thread_data sample_thread_env (Int.tdiv 3 2) 1 1)).points_inside = 1 := h42
    rw [collect_results_range, Finset.sum_range_succ, Finset.sum_range_succ,
      Finset.sum_range_zero]
    have hl : (List.range (loop_trips 2)) = [0, 1] := rfl
    rw [hl]
    simp only [List.map_cons, List.map_nil, List.getD_cons_zero, List.getD_cons_succ, h0, h1]
    rfl
  refine ⟨rfl, _, hslots, rfl, hcount, ?_, ?_⟩
  · rw [parallel_threads_of_slots exact_tests sample_thread_env 3 2 1 _ hslots]
    have hl : loop_trips 2 = 2 := rfl
    rw [hl] at hcount ⊢
    rw [hcount, estimate_dartboard 1 1 2 3 (by decide)]
    norm_num
  · intro h
    injection h with h
    norm_num at h

/-- The count of a thread lies between zero and the trials of its slot. -/
theorem run_thread_bounds (fp : fp_tests) (method : Int) (d : thread_data_t)
    (h : 0 ≤ d.points_per_thread) :
    0 ≤ (run_thread fp method d).points_inside ∧
    (run_thread fp method d).points_inside ≤ d.points_per_thread := by
  unfold run_thread
  split
  · exact worker_count_bounds fp.dart_inside d.points_per_thread d.seed h
  · exact worker_count_bounds (fp.needle_crosses 1 1) d.points_per_thread d.seed h

/-- The aggregate count of the threads lies between zero and the trials they ran. -/
theorem threads_hits_bounds (fp : fp_tests) (env : thread_env) (points_per_thread method : Int)
    (n : Nat) (h : 0 ≤ points_per_thread) :
    0 ≤ collect_results
      (((List.range n).map (init_thread_data env points_per_thread method)).map
        (run_thread fp method)) n ∧
    collect_results
      (((List.range n).map (init_thread_data env points_per_thread method)).map
        (run_thread fp method)) n ≤ (n : Int) * points_per_thread := by
  rw [collect_results_range]
  have hterm : ∀ i ∈ Finset.range n,
      0 ≤ ((((List.range n).map (init_thread_data env points_per_thread method)).map
        (run_thread fp method)).getD i default).points_inside ∧
      ((((List.range n).map (init_thread_data env points_per_thread method)).map
        (run_thread fp method)).getD i default).points_inside ≤ points_per_thread := by
    intro i hi
    have hi2 : i < n := Finset.mem_range.mp hi
    rw [List.getD_eq_getElem _ _ (by simpa using hi2)]
    simp only [List.getElem_map, List.getElem_range]
    exact run_thread_bounds fp method _ h
  constructor
  · exact Finset.sum_nonneg (fun i hi => (hterm i hi).1)
  · have := Finset.sum_le_card_nsmul (Finset.range n) _ points_per_thread
      (fun i hi => (hterm i hi).2)
    simpa using this

/-- C12 (amended): for every `total_points >= 1`, every `num_threads` in 1..16 with
`total_points / num_threads >= 1`, and every set of worker seeds, the dartboard estimate
returned by `parallel_threads_monte_carlo` equals `4 * H / total_points`, where `H` is the
aggregate hit count and `total_points` the requested number of points. The workers ran
`N = total_points - total_points mod num_threads` trials, with `0 <= H <= N`, and the estimate
equals `4 * H / N` exactly when `H = 0` or `total_points` is a multiple of `num_threads`. -/
theorem threads_estimate_requested_total (fp : fp_tests) (env : thread_env)
    (total_points num_threads : Int) (htp : 1 ≤ total_points) (hn : 1 ≤ num_threads)
    (h16 : num_threads ≤ (MAX_THREADS : Int)) (hppt : 1 ≤ Int.tdiv total_points num_threads)
    (hc : ∀ j, j < loop_trips num_threads → env.create_ok j = true) :
    ∃ (thread_data : List thread_data_t) (H N : Int),
      threads_after_barrier fp env total_points num_threads 1 = Except.ok thread_data ∧
      H = collect_results thread_data (loop_trips num_threads) ∧
      N = (thread_data.map (fun d => ((loop_trips d.points_per_thread : Nat) : Int))).sum ∧
      parallel_threads_monte_carlo fp env total_points num_threads 1 =
        Except.ok (c_double.num (4 * (H : ℚ) / (total_points : ℚ))) ∧
      N = total_points - total_points % num_threads ∧
      1 ≤ N ∧ 0 ≤ H ∧ H ≤ N ∧
      (c_double.num (4 * (H : ℚ) / (total_points : ℚ)) = c_double.num (4 * (H : ℚ) / (N : ℚ)) ↔
        H = 0 ∨ total_points % num_threads = 0) := by
  obtain ⟨hq0, hq1, hq2⟩ := tdiv_split total_points num_threads (by omega) hn
  have hlen : ((loop_trips num_threads : Nat) : Int) = num_threads :=
    loop_trips_of_nonneg (by omega)
  have hslots := threads_after_barrier_ok fp env total_points num_threads 1 hn h16 hc
  obtain ⟨td1, hs1, hest⟩ := threads_dartboard_estimate fp env total_points num_threads
    (by omega) hn h16 hc
  obtain ⟨td2, hs2, hsum⟩ := threads_trials_run fp env total_points num_threads 1
    (by omega) hn h16 hc
  have e1 : td1 = _ := Except.ok.inj (hs1.symm.trans hslots)
  have e2 : td2 = _ := Except.ok.inj (hs2.symm.trans hslots)
  have hb := threads_hits_bounds fp env (Int.tdiv total_points num_threads) 1
    (loop_trips num_threads) hq0
  rw [hlen] at hb
  rw [e1] at hest
  rw [e2] at hsum
  have hN1 : 1 ≤ total_points - total_points % num_threads := by nlinarith
  have hHN : collect_results
      (((List.range (loop_trips num_threads)).map
        (init_thread_data env (Int.tdiv total_points num_threads) 1)).map (run_thread fp 1))
      (loop_trips num_threads) ≤ total_points - total_points % num_threads := by
    have := hb.2
    omega
  refine ⟨_, _, _, hslots, rfl, rfl, hest, hsum, by rw [hsum]; exact hN1, hb.1,
    by rw [hsum]; exact hHN, ?_⟩
  rw [hsum]
  generalize collect_results
      (((List.range (loop_trips num_threads)).map
        (init_thread_data env (Int.tdiv total_points num_threads) 1)).map (run_thread fp 1))
      (loop_trips num_threads) = H at hHN ⊢
  have hmod : 0 ≤ total_points % num_threads := Int.emod_nonneg _ (by omega)
  have htq : (total_points : ℚ) ≠ 0 := by exact_mod_cast (by omega : total_points ≠ 0)
  have hNq : ((total_points - total_points % num_threads : Int) : ℚ) ≠ 0 := by
    exact_mod_cast (by omega : total_points - total_points % num_threads ≠ 0)
  rw [c_double.num.injEq, div_eq_div_iff htq hNq]
  constructor
  · intro h
    have h2 : 4 * H * (total_points - total_points % num_threads) = 4 * H * total_points := by
      exact_mod_cast h
    have h3 : H * (total_points % num_threads) = 0 := by nlinarith
    rcases mul_eq_zero.mp h3 with h4 | h4
    · exact Or.inl h4
    · exact Or.inr h4
  · intro h
    rcases h with h | h
    · rw [h]; simp
    · rw [h]; simp

theorem threads_estimate_requested_total_witness :
    ∃ (thread_data : List thread_data_t) (H N : Int),
      threads_after_barrier exact_tests sample_thread_env 3 2 1 = Except.ok thread_data ∧
      parallel_threads_monte_carlo exact_tests sample_thread_env 3 2 1 =
        Except.ok (c_double.num (4 * (H : ℚ) / ((3 : Int) : ℚ))) ∧
      N = 2 ∧ H ≤ N := by
  obtain ⟨td, H, N, h1, _, _, h4, h5, _, _, h8, _⟩ :=
    threads_estimate_requested_total exact_tests sample_thread_env 3 2 (by decide)
      (by decide) (by decide) (by decide) (fun _ _ => rfl)
  exact ⟨td, H, N, h1, h4, by rw [h5]; decide, h8⟩

end MonteCarlo
